import Mathlib

/-!
Verification of the tockloader-rs core against its specification.

Shallow embedding conventions:
* Machine integers (u8/u16/u32/u64/usize) are modelled as Nat. Where Rust
  would wrap silently on an `as` cast, we take the value modulo 2^w
  explicitly. Where Rust arithmetic (`+`, `-`, indexing, `expect`,
  `unwrap`) would panic, the embedding returns an error through
  Except String, so panics are observable outcomes distinct from normal
  returns.
* Byte buffers are List Nat with every element < 256 where it matters.
* Async functions are modelled as pure functions of the data they read:
  the serial port or probe memory is abstracted as a function from
  addresses to bytes, or as the byte stream arriving on the wire.
-/

namespace Tockloader

/-- Bytes of a u16 little-endian value, as in Rust u16::to_le_bytes. -/
def toLE16 (v : Nat) : List Nat := [v % 256, v / 256 % 256]

/-- Bytes of a u32 little-endian value, as in Rust u32::to_le_bytes. -/
def toLE32 (v : Nat) : List Nat :=
  [v % 256, v / 256 % 256, v / 65536 % 256, v / 16777216 % 256]

/-- Bytes of a u64 little-endian value, as in Rust u64::to_le_bytes. -/
def toLE64 (v : Nat) : List Nat :=
  toLE32 (v % 4294967296) ++ toLE32 (v / 4294967296 % 4294967296)

/-- Value of two bytes read little-endian, as in u16::from_le_bytes. -/
def le16 (b0 b1 : Nat) : Nat := b0 + 256 * b1

/-- Value of four bytes read little-endian, as in u32::from_le_bytes. -/
def le32 (b0 b1 b2 b3 : Nat) : Nat :=
  b0 + 256 * b1 + 65536 * b2 + 16777216 * b3

/-- XOR of the 4-byte little-endian words of a byte list, mirroring the
Rust pattern chunks_exact(4) with from_le_bytes and a running xor; a
trailing fragment shorter than 4 bytes is ignored, like chunks_exact. -/
def xorWords32 : List Nat → Nat
  | b0 :: b1 :: b2 :: b3 :: rest => (le32 b0 b1 b2 b3) ^^^ xorWords32 rest
  | _ => 0

/-! ## create_padding (command_impl/reshuffle_apps.rs)

The source builds the buffer by extending with the little-endian bytes of
version 2 (u16), header size 16 (u16) and total size (u32), then xors the
4-byte words of the 8 bytes written so far, appends that checksum word,
and finally pushes zero bytes until the buffer is size bytes long. -/

/-- Embeds fn create_padding(size: u32) from reshuffle_apps.rs. -/
def create_padding (size : Nat) : List Nat :=
  let buf := toLE16 2 ++ toLE16 16 ++ toLE32 size
  let checksum := xorWords32 buf
  let buf := buf ++ toLE32 checksum
  buf ++ List.replicate (size - buf.length) 0

/-- Modelled from the spec: the layout that §4.G claims for the synthetic
padding binary of a gap of length L — version=2 (u16 LE), header_length=16
(u16 LE), total_length=L (u32 LE), flags=0 at offset 8, and at offset 12 a
checksum equal to the XOR of the preceding three 4-byte words, followed by
L − 16 zero bytes. -/
def spec_padding_layout (size : Nat) : List Nat :=
  let words := toLE16 2 ++ toLE16 16 ++ toLE32 size ++ toLE32 0
  words ++ toLE32 (xorWords32 words) ++ List.replicate (size - 16) 0

/-! ## Serial escape encoding (bootloader_serial.rs)

issue_command walks the outgoing message and, at every ESCAPE_CHAR (0xFC),
inserts a second copy right after it, then skips both. That loop is the
function escapeMsg below (insert-after-and-skip is duplication of each
escape byte, leaving other bytes alone). -/

/-- ESCAPE_CHAR from bootloader_serial.rs. -/
def ESCAPE_CHAR : Nat := 0xFC

/-- Embeds the escape-encoding loop of issue_command (bootloader_serial.rs
lines 188-198): every ESCAPE_CHAR byte of the message is duplicated. -/
def escapeMsg : List Nat → List Nat
  | [] => []
  | b :: rest =>
    if b = ESCAPE_CHAR then ESCAPE_CHAR :: ESCAPE_CHAR :: escapeMsg rest
    else b :: escapeMsg rest

/-- Embeds the receive-side de-escape loop of issue_command
(bootloader_serial.rs lines 226-238). The second argument is the
still-unprocessed part of the input buffer (input[i..]); the third is the
rest of the wire stream that read_bytes would deliver. When two
consecutive ESCAPE_CHAR bytes are found, one more byte is read from the
wire and appended at the end of the input buffer, one ESCAPE_CHAR is
pushed to the result and both input bytes are skipped. Reading from an
exhausted wire models the 5 second timeout, an error. The fuel argument
only forces structural recursion: each step consumes one unit while the
quantity input.length + wire.length shrinks faster, so any fuel at or
above that sum (the caller passes the whole wire length) never runs out. -/
def deEscapeLoop (fuel : Nat) (inp wire : List Nat) : Except String (List Nat) :=
  match fuel, inp with
  | _, [] => .ok []
  | _, [a] => .ok [a]
  | 0, _ :: _ :: _ => .error "fuel"
  | fuel + 1, a :: b :: rest =>
    if a = ESCAPE_CHAR ∧ b = ESCAPE_CHAR then
      match wire with
      | [] => .error "BootloaderTimeout"
      | w :: wire2 => (deEscapeLoop fuel (rest ++ [w]) wire2).map (ESCAPE_CHAR :: ·)
    else
      (deEscapeLoop fuel (b :: rest) wire).map (a :: ·)

/-- Embeds the response phase of issue_command for expected response
length n over a given wire stream: read n bytes, then run the de-escape
loop, which may pull further bytes from the wire. A wire shorter than n
models a timeout. -/
def deEscapeResponse (wire : List Nat) (n : Nat) : Except String (List Nat) :=
  if n ≤ wire.length then deEscapeLoop wire.length (wire.take n) (wire.drop n)
  else .error "BootloaderTimeout"

lemma escapeMsg_length (b : List Nat) :
    (escapeMsg b).length = b.length + b.count ESCAPE_CHAR := by
  induction b with
  | nil => simp [escapeMsg]
  | cons x xs ih =>
    by_cases hx : x = ESCAPE_CHAR <;>
      simp [escapeMsg, hx, ih, List.count_cons] <;> omega

lemma deEscapeLoop_ok_length (fuel : Nat) :
    ∀ inp wire r, deEscapeLoop fuel inp wire = .ok r → r.length = inp.length := by
  induction fuel with
  | zero =>
    intro inp wire r h
    match inp with
    | [] => simp [deEscapeLoop] at h; simp [← h]
    | [a] => simp [deEscapeLoop] at h; simp [← h]
    | a :: b :: rest => simp [deEscapeLoop] at h
  | succ fuel ih =>
    intro inp wire r h
    match inp with
    | [] => simp [deEscapeLoop] at h; simp [← h]
    | [a] => simp [deEscapeLoop] at h; simp [← h]
    | a :: b :: rest =>
      simp only [deEscapeLoop] at h
      by_cases hab : a = ESCAPE_CHAR ∧ b = ESCAPE_CHAR
      · rw [if_pos hab] at h
        match wire with
        | [] => simp at h
        | w :: wire2 =>
          simp only [Except.map] at h
          match he : deEscapeLoop fuel (rest ++ [w]) wire2 with
          | .error e => rw [he] at h; simp at h
          | .ok r2 =>
            rw [he] at h
            simp at h
            have := ih (rest ++ [w]) wire2 r2 he
            simp [← h, List.length_append] at this ⊢
            omega
      · rw [if_neg hab] at h
        simp only [Except.map] at h
        match he : deEscapeLoop fuel (b :: rest) wire with
        | .error e => rw [he] at h; simp at h
        | .ok r2 =>
          rw [he] at h
          simp at h
          have := ih (b :: rest) wire r2 he
          simp [← h, this]

lemma deEscapeLoop_escapeMsg :
    ∀ (c : List Nat) (fuel : Nat) (inp wire : List Nat),
      inp ++ wire = escapeMsg c → inp.length = c.length →
      inp.length + wire.length ≤ fuel →
      deEscapeLoop fuel inp wire = .ok c := by
  intro c
  induction c with
  | nil =>
    intro fuel inp wire h hlen _
    have : inp = [] := List.length_eq_zero.mp hlen
    subst this
    simp [escapeMsg] at h
    subst h
    match fuel with
    | 0 => rfl
    | _ + 1 => rfl
  | cons x c2 ih =>
    intro fuel inp wire h hlen hfuel
    match inp with
    | [] => simp at hlen
    | a :: inp2 =>
      by_cases hx : x = ESCAPE_CHAR
      · subst hx
        rw [escapeMsg] at h
        rw [if_pos rfl] at h
        simp only [List.cons_append, List.cons.injEq] at h
        obtain ⟨ha, h2⟩ := h
        subst ha
        match inp2 with
        | [] =>
          have hc2 : c2 = [] := by
            cases c2 with
            | nil => rfl
            | cons y ys => simp at hlen
          subst hc2
          match fuel with
          | 0 => rfl
          | _ + 1 => rfl
        | b :: rest =>
          simp only [List.cons_append, List.cons.injEq] at h2
          obtain ⟨hb, h3⟩ := h2
          subst hb
          match fuel with
          | 0 => simp at hfuel
          | f + 1 =>
            match wire with
            | [] =>
              exfalso
              simp at h3
              have h4 := congrArg List.length h3
              rw [escapeMsg_length] at h4
              simp at h4 hlen
              omega
            | w :: wire2 =>
              have happ : (rest ++ [w]) ++ wire2 = escapeMsg c2 := by
                rw [List.append_assoc]
                simpa using h3
              have hl2 : (rest ++ [w]).length = c2.length := by
                simp at hlen ⊢
                omega
              have hf2 : (rest ++ [w]).length + wire2.length ≤ f := by
                simp at hfuel ⊢
                omega
              have hrec := ih f (rest ++ [w]) wire2 happ hl2 hf2
              simp only [deEscapeLoop]
              split
              next => simp [hrec, Except.map]
              next hcond => simp at hcond
      · rw [escapeMsg] at h
        rw [if_neg hx] at h
        simp only [List.cons_append, List.cons.injEq] at h
        obtain ⟨ha, h2⟩ := h
        subst ha
        match inp2 with
        | [] =>
          have hc2 : c2 = [] := by
            cases c2 with
            | nil => rfl
            | cons y ys => simp at hlen
          subst hc2
          match fuel with
          | 0 => rfl
          | _ + 1 => rfl
        | b :: rest =>
          match fuel with
          | 0 => simp at hfuel
          | f + 1 =>
            have hl2 : (b :: rest).length = c2.length := by
              simp at hlen ⊢
              omega
            have hf2 : (b :: rest).length + wire.length ≤ f := by
              simp at hfuel ⊢
              omega
            have hrec := ih f (b :: rest) wire h2 hl2 hf2
            simp only [deEscapeLoop]
            split
            next hcond => exact absurd hcond.1 hx
            next => simp [hrec, Except.map]

/-- C4. For every byte string b, the serial escape encoding of
issue_command (duplicating each 0xFC byte) makes the message longer by
exactly the number of ESCAPE_CHAR bytes of b, and feeding the escaped
stream to the receive-side de-escape loop with expected length b.length
returns exactly b. -/
theorem c4_serial_escape_roundtrip (b : List Nat) :
    (escapeMsg b).length = b.length + b.count ESCAPE_CHAR ∧
      deEscapeResponse (escapeMsg b) b.length = .ok b := by
  refine ⟨escapeMsg_length b, ?_⟩
  have hle : b.length ≤ (escapeMsg b).length := by
    rw [escapeMsg_length]; omega
  rw [deEscapeResponse, if_pos hle]
  apply deEscapeLoop_escapeMsg b
  · exact List.take_append_drop b.length (escapeMsg b)
  · rw [List.length_take]
    exact min_eq_left hle
  · rw [List.length_take, List.length_drop, min_eq_left hle]
    omega

/-- C5. Whenever the response phase of issue_command succeeds with
expected_response_len n, the de-escaped payload handed to the caller has
exactly n bytes, regardless of how many extra wire bytes the collapsed
ESCAPE pairs forced it to read. -/
theorem c5_response_exact_length (wire : List Nat) (n : Nat) (r : List Nat)
    (h : deEscapeResponse wire n = .ok r) : r.length = n := by
  rw [deEscapeResponse] at h
  by_cases hle : n ≤ wire.length
  · rw [if_pos hle] at h
    have := deEscapeLoop_ok_length wire.length (wire.take n) (wire.drop n) r h
    simpa [List.length_take_of_le hle] using this
  · rw [if_neg hle] at h
    simp at h

/-- Witness for C5: a four byte wire stream of ESCAPE bytes de-escapes,
for expected length 2, to a payload of exactly 2 bytes (every data byte of
the response is an ESCAPE). -/
theorem c5_response_exact_length_witness :
    ([ESCAPE_CHAR, ESCAPE_CHAR] : List Nat).length = 2 :=
  c5_response_exact_length [ESCAPE_CHAR, ESCAPE_CHAR, ESCAPE_CHAR, ESCAPE_CHAR] 2
    [ESCAPE_CHAR, ESCAPE_CHAR] (by rfl)

/-- C3. The synthetic padding binary diverges from the claimed layout: for
the gap length 32 the buffer create_padding produces is 32 bytes, but it
carries the checksum word (the XOR of only the first two 4-byte words,
here 0x00100022) at offset 8 — where the claim requires flags=0 — and
zero bytes at offset 12 — where the claim requires the checksum. The
byte at offset 8 is 0x22, not 0. -/
theorem c3_create_padding_layout :
    (create_padding 32).length = 32 ∧
      (create_padding 32).get? 8 = some 0x22 ∧
      (create_padding 32).get? 12 = some 0 ∧
      (spec_padding_layout 32).get? 8 = some 0 ∧
      create_padding 32 ≠ spec_padding_layout 32 := by
  refine ⟨by rfl, by rfl, by rfl, by rfl, by decide⟩

/-! ## Generic helpers for fallible iteration

mapExcept is the standard effectful map over Except, written with its own
equations so proofs can proceed by plain induction. It models Rust
iterator pipelines in which the closure may panic. -/

/-- Maps a fallible function over a list, stopping at the first error. -/
def mapExcept (f : α → Except String β) : List α → Except String (List β)
  | [] => .ok []
  | x :: xs =>
    match f x with
    | .error e => .error e
    | .ok y =>
      match mapExcept f xs with
      | .error e => .error e
      | .ok ys => .ok (y :: ys)

lemma mapExcept_ok_of_forall {f : α → Except String β} {g : α → β} :
    ∀ {l : List α}, (∀ x ∈ l, f x = .ok (g x)) → mapExcept f l = .ok (l.map g) := by
  intro l
  induction l with
  | nil => intro _; rfl
  | cons x xs ih =>
    intro h
    have hx := h x (List.mem_cons_self x xs)
    have hxs := ih (fun y hy => h y (List.mem_cons_of_mem x hy))
    simp [mapExcept, hx, hxs]

lemma mapExcept_mem {f : α → Except String β} :
    ∀ {l : List α} {r : List β}, mapExcept f l = .ok r →
      ∀ y ∈ r, ∃ x ∈ l, f x = .ok y := by
  intro l
  induction l with
  | nil =>
    intro r h y hy
    simp [mapExcept] at h
    subst h
    simp at hy
  | cons x xs ih =>
    intro r h y hy
    rw [mapExcept] at h
    match hfx : f x with
    | .error e => rw [hfx] at h; simp at h
    | .ok y0 =>
      rw [hfx] at h
      match hrec : mapExcept f xs with
      | .error e => rw [hrec] at h; simp at h
      | .ok ys =>
        rw [hrec] at h
        simp at h
        subst h
        rcases List.mem_cons.mp hy with hy0 | hymem
        · exact ⟨x, List.mem_cons_self x xs, by rw [hfx, hy0]⟩
        · obtain ⟨x2, hx2, hfx2⟩ := ih hrec y hymem
          exact ⟨x2, List.mem_cons_of_mem x hx2, hfx2⟩

lemma mapExcept_mem_image {f : α → Except String β} :
    ∀ {l : List α} {r : List β}, mapExcept f l = .ok r →
      ∀ x ∈ l, ∃ y ∈ r, f x = .ok y := by
  intro l
  induction l with
  | nil => intro r _ x hx; simp at hx
  | cons x0 xs ih =>
    intro r h x hx
    rw [mapExcept] at h
    match hfx : f x0 with
    | .error e => rw [hfx] at h; simp at h
    | .ok y0 =>
      rw [hfx] at h
      match hrec : mapExcept f xs with
      | .error e => rw [hrec] at h; simp at h
      | .ok ys =>
        rw [hrec] at h
        simp at h
        subst h
        rcases List.mem_cons.mp hx with hx0 | hxmem
        · exact ⟨y0, List.mem_cons_self y0 ys, by rw [hx0, hfx]⟩
        · obtain ⟨y, hy, hfy⟩ := ih hrec x hxmem
          exact ⟨y, List.mem_cons_of_mem y0 hy, hfy⟩

/-! ## Serial backend read packet (command_impl/serial/read_write.rs)

ReadWrite::read for the serial connection builds its ReadRange request by
extending an empty packet with address.to_le_bytes() — address being the
u64 parameter — and then (data.len() as u16).to_le_bytes(). -/

/-- Embeds the packet construction of ReadWrite::read in
command_impl/serial/read_write.rs (lines 16-18). The address is a u64 and
its full eight little-endian bytes are appended, then the u16 length. -/
def serial_read_packet (address len : Nat) : List Nat :=
  toLE64 (address % 2 ^ 64) ++ toLE16 (len % 2 ^ 16)

/-- Modelled from the spec: §4.D says serial reads compose a 6-byte
payload of the u32 LE address, truncated from the u64, followed by the
u16 LE length. -/
def spec_read_packet (address len : Nat) : List Nat :=
  toLE32 (address % 2 ^ 32) ++ toLE16 (len % 2 ^ 16)

/-- C9. The ReadRange request payload built by the serial backend read is
not the 6-byte {u32 LE address, u16 LE length} packet the claim
describes: the code appends all eight little-endian bytes of the u64
address, yielding a 10-byte payload. At address 0x40000 with length 8 the
code produces [0,0,4,0,0,0,0,0,8,0] where the claim requires
[0,0,4,0,8,0]. -/
theorem c9_serial_read_packet_bug :
    (serial_read_packet 0x40000 8).length = 10 ∧
      serial_read_packet 0x40000 8 = [0, 0, 4, 0, 0, 0, 0, 0, 8, 0] ∧
      spec_read_packet 0x40000 8 = [0, 0, 4, 0, 8, 0] ∧
      serial_read_packet 0x40000 8 ≠ spec_read_packet 0x40000 8 := by
  refine ⟨rfl, rfl, rfl, by decide⟩

/-! ## Serial install write path (command_impl/serial/install.rs)

install_app pads the binary to a whole number of 512-byte pages with 0xFF
bytes, selects the pages that contain a nonzero byte (all pages when none
does), appends after them each directly following page that was not
selected, writes one WritePage packet per selected page — four
little-endian bytes of the page address followed by the 512 page bytes —
and finally issues ErasePage on the address just past the padded binary.
The functions below embed lines 127-186 of install.rs, with the page
index cast i as u8 modelled as i % 256 and checked u8/u32/u64 additions
modelled as errors on overflow. -/

/-- Hardcoded page size of install_app (install.rs line 129). -/
def install_page_size : Nat := 512

/-- Embeds the 0xFF padding of the binary (install.rs lines 131-133). -/
def install_padded (binary : List Nat) : List Nat :=
  binary ++
    List.replicate ((install_page_size - binary.length % install_page_size) %
      install_page_size) 0xFF

/-- Bytes of page i of a padded binary, binary[i*512..(i+1)*512]. -/
def pageSlice (b : List Nat) (i : Nat) : List Nat :=
  (b.drop (i * install_page_size)).take install_page_size

/-- Embeds the valid-pages selection (install.rs lines 138-154): indices
of pages with a nonzero byte, cast to u8, or all pages if none qualifies. -/
def installBasePages (padded : List Nat) : List Nat :=
  let pages := padded.length / install_page_size
  let chosen :=
    ((List.range pages).filter
        (fun i => (pageSlice padded i).any (fun x => x != 0))).map (· % 256)
  if chosen.isEmpty then (List.range pages).map (· % 256) else chosen

/-- Embeds the whole write plan of install_app lines 127-186 for an
already aligned target address: the list of WritePage packets in issue
order and the ErasePage packet. u8 increment of a page index, u32 page
address computation and the final u64 address bump are checked additions. -/
def install_write_plan (binary : List Nat) (new_address : Nat) :
    Except String (List (List Nat) × List Nat) :=
  let padded := install_padded binary
  let pages := padded.length / install_page_size
  let base := installBasePages padded
  match mapExcept
      (fun i => if i = 255 then
          Except.error "attempt to add with overflow" else .ok (i + 1)) base with
  | .error e => .error e
  | .ok bumped =>
    let ending := bumped.filter
      (fun nxt => decide (nxt < pages % 256) && !(base.contains nxt))
    let valid := base ++ ending
    match mapExcept (fun i =>
        let addr32 := new_address % 2 ^ 32
        let off32 := (i * install_page_size) % 2 ^ 32
        if addr32 + off32 < 2 ^ 32 then
          Except.ok (toLE32 (addr32 + off32) ++ pageSlice padded i)
        else .error "attempt to add with overflow") valid with
    | .error e => .error e
    | .ok pkts =>
      if new_address + padded.length < 2 ^ 64 then
        .ok (pkts, toLE32 ((new_address + padded.length) % 2 ^ 32))
      else .error "attempt to add with overflow"

lemma install_padded_dvd (binary : List Nat) :
    install_page_size ∣ (install_padded binary).length := by
  rw [Nat.dvd_iff_mod_eq_zero]
  simp [install_padded, install_page_size, List.length_append, List.length_replicate]
  omega

lemma install_padded_mul (binary : List Nat) :
    (install_padded binary).length / install_page_size * install_page_size =
      (install_padded binary).length :=
  Nat.div_mul_cancel (install_padded_dvd binary)

lemma pageSlice_length (b : List Nat) (i : Nat)
    (h : i * install_page_size + install_page_size ≤ b.length) :
    (pageSlice b i).length = install_page_size := by
  rw [pageSlice, List.length_take, List.length_drop]
  omega

lemma mem_installBasePages {padded : List Nat}
    (h255 : padded.length / install_page_size ≤ 255) :
    ∀ i ∈ installBasePages padded, i < padded.length / install_page_size := by
  intro i hi
  rw [installBasePages] at hi
  by_cases hemp :
      (((List.range (padded.length / install_page_size)).filter
        (fun i => (pageSlice padded i).any (fun x => x != 0))).map (· % 256)).isEmpty
  · rw [if_pos hemp] at hi
    obtain ⟨j, hj, hji⟩ := List.mem_map.mp hi
    rw [List.mem_range] at hj
    rw [← hji, Nat.mod_eq_of_lt (by omega)]
    exact hj
  · rw [if_neg hemp] at hi
    obtain ⟨j, hj, hji⟩ := List.mem_map.mp hi
    have hj2 := (List.mem_filter.mp hj).1
    rw [List.mem_range] at hj2
    rw [← hji, Nat.mod_eq_of_lt (by omega)]
    exact hj2

lemma nonzero_mem_installBasePages {padded : List Nat}
    (h255 : padded.length / install_page_size ≤ 255) (i : Nat)
    (hi : i < padded.length / install_page_size)
    (hnz : (pageSlice padded i).any (fun x => x != 0) = true) :
    i ∈ installBasePages padded := by
  have hmem : i ∈ (List.range (padded.length / install_page_size)).filter
      (fun i => (pageSlice padded i).any (fun x => x != 0)) :=
    List.mem_filter.mpr ⟨List.mem_range.mpr hi, hnz⟩
  have hmap : i ∈ ((List.range (padded.length / install_page_size)).filter
      (fun i => (pageSlice padded i).any (fun x => x != 0))).map (· % 256) := by
    refine List.mem_map.mpr ⟨i, hmem, ?_⟩
    exact Nat.mod_eq_of_lt (by omega)
  rw [installBasePages]
  by_cases hemp :
      (((List.range (padded.length / install_page_size)).filter
        (fun i => (pageSlice padded i).any (fun x => x != 0))).map (· % 256)).isEmpty
  · exfalso
    rw [List.isEmpty_iff] at hemp
    rw [hemp] at hmap
    simp at hmap
  · rw [if_neg hemp]
    exact hmap

set_option maxRecDepth 8000 in
/-- C6-counterexample. For the one-byte binary [0x01] written at address
0, the padding bytes appended by install_app are 0xFF, not 0x00 as the
claim states, and the single WritePage packet is 516 bytes long — a
4-byte little-endian page address plus the 512 page bytes — not the
6-byte address prefix plus page the claim describes. -/
theorem c6_serial_install_counterexample :
    install_padded [1] = [1] ++ List.replicate 511 0xFF ∧
      (install_padded [1]).get? 1 = some 0xFF ∧
      install_write_plan [1] 0 =
        .ok ([toLE32 0 ++ install_padded [1]], toLE32 512) ∧
      (toLE32 0 ++ install_padded [1]).length = 516 :=
  ⟨rfl, rfl, rfl, rfl⟩

/-- C6. Corrected description of the serial install write path, for a
target address and binary small enough that no u8 page-index truncation
and no u32/u64 address overflow occurs: the binary is padded with 0xFF
bytes — not 0x00 — to a whole number of 512-byte pages; every issued
WritePage packet consists of 4 little-endian address bytes (addr + i*512)
followed by the 512 bytes of page i — not a 6-byte prefix; every page
containing a nonzero byte is written; and the final ErasePage targets the
address immediately past the padded binary. The serial ReadWrite::write
method itself is unimplemented (todo!), so install_app is the only serial
write path. -/
theorem c6_serial_install_write_plan (binary : List Nat) (addr : Nat)
    (h255 : (install_padded binary).length / install_page_size ≤ 255)
    (haddr : addr + (install_padded binary).length < 2 ^ 32) :
    install_page_size ∣ (install_padded binary).length ∧
      (install_padded binary).take binary.length = binary ∧
      (∀ j, binary.length ≤ j → j < (install_padded binary).length →
        (install_padded binary).get? j = some 0xFF) ∧
      ∃ pkts, install_write_plan binary addr =
          .ok (pkts, toLE32 ((addr + (install_padded binary).length) % 2 ^ 32)) ∧
        (∀ pkt ∈ pkts, ∃ i, i < (install_padded binary).length / install_page_size ∧
          pkt = toLE32 (addr + i * install_page_size) ++
            pageSlice (install_padded binary) i ∧
          pkt.length = 4 + install_page_size) ∧
        (∀ i, i < (install_padded binary).length / install_page_size →
          (pageSlice (install_padded binary) i).any (fun x => x != 0) = true →
          toLE32 (addr + i * install_page_size) ++
            pageSlice (install_padded binary) i ∈ pkts) := by
  refine ⟨install_padded_dvd binary, ?_, ?_, ?_⟩
  · rw [install_padded, List.take_left]
  · intro j hj1 hj2
    rw [install_padded] at hj2 ⊢
    rw [List.get?_append_right hj1]
    rw [List.length_append, List.length_replicate] at hj2
    rw [List.get?_eq_get (by simp [List.length_replicate]; omega)]
    simp [List.get_replicate]
  · have hmul : (install_padded binary).length / install_page_size * install_page_size =
        (install_padded binary).length := install_padded_mul binary
    have hbase := @mem_installBasePages (install_padded binary) h255
    -- the u8 increments of page indices never overflow
    have hbump : mapExcept (fun i => if i = 255 then
        Except.error "attempt to add with overflow" else .ok (i + 1))
        (installBasePages (install_padded binary)) =
        .ok ((installBasePages (install_padded binary)).map (· + 1)) := by
      apply mapExcept_ok_of_forall
      intro x hx
      have := hbase x hx
      rw [if_neg (by omega)]
    -- every selected page index is a real page index
    have hival : ∀ i ∈ installBasePages (install_padded binary) ++
        (((installBasePages (install_padded binary)).map (· + 1)).filter
          (fun nxt => decide (nxt < (install_padded binary).length / install_page_size % 256) &&
            !((installBasePages (install_padded binary)).contains nxt))),
        i < (install_padded binary).length / install_page_size := by
      intro i hi
      rcases List.mem_append.mp hi with hi | hi
      · exact hbase i hi
      · have hfl := (List.mem_filter.mp hi).2
        have hlt : i < (install_padded binary).length / install_page_size % 256 :=
          of_decide_eq_true (Bool.and_elim_left hfl)
        have h256 : (install_padded binary).length / install_page_size % 256 ≤
            (install_padded binary).length / install_page_size :=
          Nat.mod_le _ _
        omega
    -- the page write packets all build without u32 overflow
    have hpkts : mapExcept (fun i =>
        if addr % 2 ^ 32 + i * install_page_size % 2 ^ 32 < 2 ^ 32 then
          Except.ok (toLE32 (addr % 2 ^ 32 + i * install_page_size % 2 ^ 32) ++
            pageSlice (install_padded binary) i)
        else .error "attempt to add with overflow")
        (installBasePages (install_padded binary) ++
          (((installBasePages (install_padded binary)).map (· + 1)).filter
            (fun nxt => decide (nxt < (install_padded binary).length / install_page_size % 256) &&
              !((installBasePages (install_padded binary)).contains nxt)))) =
        .ok ((installBasePages (install_padded binary) ++
          (((installBasePages (install_padded binary)).map (· + 1)).filter
            (fun nxt => decide (nxt < (install_padded binary).length / install_page_size % 256) &&
              !((installBasePages (install_padded binary)).contains nxt)))).map
          (fun i => toLE32 (addr + i * install_page_size) ++
            pageSlice (install_padded binary) i)) := by
      apply mapExcept_ok_of_forall
      intro x hx
      have hxlt := hival x hx
      have hoff : x * install_page_size + install_page_size ≤
          (install_padded binary).length := by
        rw [← hmul]
        calc x * install_page_size + install_page_size
            = (x + 1) * install_page_size := by ring
          _ ≤ (install_padded binary).length / install_page_size * install_page_size :=
            Nat.mul_le_mul_right _ (by omega)
      have haddrsmall : addr % 2 ^ 32 = addr := Nat.mod_eq_of_lt (by omega)
      have hoffsmall : x * install_page_size % 2 ^ 32 = x * install_page_size :=
        Nat.mod_eq_of_lt (by omega)
      rw [haddrsmall, hoffsmall, if_pos (by omega)]
    refine ⟨(installBasePages (install_padded binary) ++
        (((installBasePages (install_padded binary)).map (· + 1)).filter
          (fun nxt => decide (nxt < (install_padded binary).length / install_page_size % 256) &&
            !((installBasePages (install_padded binary)).contains nxt)))).map
        (fun i => toLE32 (addr + i * install_page_size) ++
          pageSlice (install_padded binary) i), ?_, ?_, ?_⟩
    · unfold install_write_plan
      simp only []
      rw [hbump]
      simp only []
      rw [hpkts]
      simp only []
      rw [if_pos (show addr + (install_padded binary).length < 2 ^ 64 by
        have : (2 : Nat) ^ 32 < 2 ^ 64 := by norm_num
        omega)]
    · intro pkt hp
      obtain ⟨i, hiv, hpe⟩ := List.mem_map.mp hp
      refine ⟨i, hival i hiv, hpe.symm, ?_⟩
      have hoff : i * install_page_size + install_page_size ≤
          (install_padded binary).length := by
        rw [← hmul]
        have := hival i hiv
        calc i * install_page_size + install_page_size
            = (i + 1) * install_page_size := by ring
          _ ≤ (install_padded binary).length / install_page_size * install_page_size :=
            Nat.mul_le_mul_right _ (by omega)
      rw [← hpe, List.length_append, pageSlice_length _ _ hoff]
      rfl
    · intro i hi hnz
      have hmem := nonzero_mem_installBasePages h255 i hi hnz
      exact List.mem_map_of_mem _ (List.mem_append_left _ hmem)

set_option maxRecDepth 8000 in
/-- Witness for C6: the one-page binary [1] written at address 0 satisfies
the hypotheses of the corrected install theorem. -/
theorem c6_serial_install_write_plan_witness :
    install_page_size ∣ (install_padded [1]).length :=
  (c6_serial_install_write_plan [1] 0 (by decide) (by decide)).1

/-! ## disable_app checksum patch (command_impl/probers/disable_app.rs)

For an app whose flag byte at offset 8 is 1, disable_app stages two
writes through the flash loader: a single zero byte at address + 8
(ENABLED_OFFSET) and, at address + 12 (CHECKSUM_OFFSET), the four bytes
of checksum - 1, where checksum was read little-endian from bytes 12..16
of the header during the inventory walk (from_ne_bytes on a
little-endian host). disable_app_patch is the effect of those two writes
on the header bytes; the checked u32 subtraction underflows when the
stored checksum is zero. -/

/-- Embeds the byte-level effect of disable_app lines 157-161 on the
header of the selected app. -/
def disable_app_patch (hdr : List Nat) : Except String (List Nat) :=
  match hdr.get? 12, hdr.get? 13, hdr.get? 14, hdr.get? 15 with
  | some b12, some b13, some b14, some b15 =>
    let c := le32 b12 b13 b14 b15
    if c = 0 then .error "attempt to subtract with overflow"
    else .ok (((((hdr.set 8 0).set 12 ((c - 1) % 256)).set 13 ((c - 1) / 256 % 256)).set
        14 ((c - 1) / 65536 % 256)).set 15 ((c - 1) / 16777216 % 256))
  | _, _, _, _ => .error "index out of bounds"

lemma xor_one_of_odd (x : Nat) (hx : x % 2 = 1) : x ^^^ 1 = x - 1 := by
  obtain ⟨k, hk⟩ : ∃ k, x = 2 * k + 1 := ⟨x / 2, by omega⟩
  subst hk
  have h2 : 2 * k + 1 - 1 = 2 * k := by omega
  rw [h2]
  apply Nat.eq_of_testBit_eq
  intro i
  cases i with
  | zero => simp [Nat.testBit_xor, Nat.testBit_zero]; omega
  | succ j =>
    rw [Nat.testBit_xor]
    have h1 : Nat.testBit 1 (j + 1) = false := by
      simp [Nat.testBit_succ]
    rw [h1]
    simp [Nat.testBit_succ]
    congr 1
    omega

lemma xor_cancel_pair (u v w : Nat) :
    (u ^^^ 1) ^^^ ((v ^^^ 1) ^^^ w) = u ^^^ (v ^^^ w) := by
  apply Nat.eq_of_testBit_eq
  intro i
  simp only [Nat.testBit_xor]
  cases Nat.testBit u i <;> cases Nat.testBit v i <;>
    cases Nat.testBit w i <;> cases Nat.testBit 1 i <;> rfl

/-- C8-counterexample. A valid v2 header with flag word 1 and an even
stored checksum (0x00100022): the XOR of its words is zero and its flag
byte is 1, but after the disable_app patch — flag byte zeroed, checksum
decremented by 1 — the XOR of the words is 2, not 0, so the v2 invariant
is broken. The arithmetic decrement only matches the XOR delta of the
flag change when the stored checksum is odd. -/
theorem c8_disable_counterexample :
    xorWords32 [2, 0, 16, 0, 33, 0, 0, 0, 1, 0, 0, 0, 34, 0, 16, 0] = 0 ∧
      ([2, 0, 16, 0, 33, 0, 0, 0, 1, 0, 0, 0, 34, 0, 16, 0] : List Nat).get? 8 = some 1 ∧
      disable_app_patch [2, 0, 16, 0, 33, 0, 0, 0, 1, 0, 0, 0, 34, 0, 16, 0] =
        .ok [2, 0, 16, 0, 33, 0, 0, 0, 0, 0, 0, 0, 33, 0, 16, 0] ∧
      xorWords32 [2, 0, 16, 0, 33, 0, 0, 0, 0, 0, 0, 0, 33, 0, 16, 0] = 2 := by
  refine ⟨by decide, rfl, rfl, by decide⟩

/-- C8. Corrected claim: for every header whose flag byte at offset 8 is
1 and whose stored checksum word c (little-endian bytes 12..16) is odd,
the disable_app patch zeroes the flag byte, stores c - 1 as the new
checksum, and the patched header still satisfies the v2 invariant that
the 32-bit XOR of all its 4-byte words is zero. Oddness of c is
necessary: the arithmetic c - 1 equals the XOR adjustment c ^^^ 1 exactly
then (see the counterexample for even c). -/
theorem c8_disable_preserves_checksum_invariant
    (b0 b1 b2 b3 b4 b5 b6 b7 b9 b10 b11 b12 b13 b14 b15 : Nat) (rest : List Nat)
    (hb12 : b12 < 256) (hb13 : b13 < 256) (hb14 : b14 < 256) (hb15 : b15 < 256)
    (hodd : b12 % 2 = 1)
    (hinv : xorWords32 (b0 :: b1 :: b2 :: b3 :: b4 :: b5 :: b6 :: b7 ::
      1 :: b9 :: b10 :: b11 :: b12 :: b13 :: b14 :: b15 :: rest) = 0) :
    ∃ hdr2,
      disable_app_patch (b0 :: b1 :: b2 :: b3 :: b4 :: b5 :: b6 :: b7 ::
          1 :: b9 :: b10 :: b11 :: b12 :: b13 :: b14 :: b15 :: rest) = .ok hdr2 ∧
        hdr2.get? 8 = some 0 ∧
        (∃ c12 c13 c14 c15, hdr2.get? 12 = some c12 ∧ hdr2.get? 13 = some c13 ∧
          hdr2.get? 14 = some c14 ∧ hdr2.get? 15 = some c15 ∧
          le32 c12 c13 c14 c15 = le32 b12 b13 b14 b15 - 1) ∧
        xorWords32 hdr2 = 0 := by
  have hcodd : le32 b12 b13 b14 b15 % 2 = 1 := by
    unfold le32
    omega
  have hclt : le32 b12 b13 b14 b15 < 2 ^ 32 := by
    unfold le32
    omega
  have hc0 : le32 b12 b13 b14 b15 ≠ 0 := by omega
  refine ⟨b0 :: b1 :: b2 :: b3 :: b4 :: b5 :: b6 :: b7 ::
      0 :: b9 :: b10 :: b11 :: ((le32 b12 b13 b14 b15 - 1) % 256) ::
      ((le32 b12 b13 b14 b15 - 1) / 256 % 256) ::
      ((le32 b12 b13 b14 b15 - 1) / 65536 % 256) ::
      ((le32 b12 b13 b14 b15 - 1) / 16777216 % 256) :: rest, ?_, rfl, ?_, ?_⟩
  · simp [disable_app_patch, if_neg hc0, List.set]
  · refine ⟨_, _, _, _, rfl, rfl, rfl, rfl, ?_⟩
    unfold le32
    unfold le32 at hclt
    omega
  · have hB : le32 ((le32 b12 b13 b14 b15 - 1) % 256)
        ((le32 b12 b13 b14 b15 - 1) / 256 % 256)
        ((le32 b12 b13 b14 b15 - 1) / 65536 % 256)
        ((le32 b12 b13 b14 b15 - 1) / 16777216 % 256) =
        le32 b12 b13 b14 b15 ^^^ 1 := by
      rw [xor_one_of_odd _ hcodd]
      unfold le32
      unfold le32 at hclt
      omega
    have hA : le32 0 b9 b10 b11 = le32 1 b9 b10 b11 ^^^ 1 := by
      rw [xor_one_of_odd]
      · unfold le32
        omega
      · unfold le32
        omega
    simp only [xorWords32] at hinv ⊢
    rw [hA, hB]
    calc le32 b0 b1 b2 b3 ^^^ (le32 b4 b5 b6 b7 ^^^
          ((le32 1 b9 b10 b11 ^^^ 1) ^^^ ((le32 b12 b13 b14 b15 ^^^ 1) ^^^ xorWords32 rest)))
        = le32 b0 b1 b2 b3 ^^^ (le32 b4 b5 b6 b7 ^^^
          (le32 1 b9 b10 b11 ^^^ (le32 b12 b13 b14 b15 ^^^ xorWords32 rest))) := by
          rw [xor_cancel_pair]
      _ = 0 := hinv

/-- Witness for C8: a valid header with flag word 1 and odd stored
checksum 0x00100023 is patched by disable_app to a header that still
satisfies the XOR invariant. -/
theorem c8_disable_preserves_checksum_invariant_witness :
    ∃ hdr2,
      disable_app_patch (2 :: 0 :: 16 :: 0 :: 32 :: 0 :: 0 :: 0 ::
          1 :: 0 :: 0 :: 0 :: 35 :: 0 :: 16 :: 0 :: []) = .ok hdr2 ∧
        hdr2.get? 8 = some 0 ∧
        (∃ c12 c13 c14 c15, hdr2.get? 12 = some c12 ∧ hdr2.get? 13 = some c13 ∧
          hdr2.get? 14 = some c14 ∧ hdr2.get? 15 = some c15 ∧
          le32 c12 c13 c14 c15 = le32 35 0 16 0 - 1) ∧
        xorWords32 hdr2 = 0 :=
  c8_disable_preserves_checksum_invariant 2 0 16 0 32 0 0 0 0 0 0 35 0 16 0 []
    (by decide) (by decide) (by decide) (by decide) (by decide) (by decide)

/-! ## Attribute slot decoding (attributes/decode.rs and
attributes/system_attributes.rs)

decode_attribute takes one 64-byte slot: it utf-8 decodes the first 8
bytes as the key, panicking on a decode error; reads the value length
vlen at offset 8; returns None when vlen is 0 or greater than 55; and
otherwise utf-8 decodes the vlen value bytes starting at offset 9. The
slot loop of read_system_attributes_probe (lines 79-123) walks the
sixteen 64-byte chunks of the buffer read at 0x600, skipping slots that
decode to None and assigning slots 0..3 to board, arch, appaddr (parsed
from a hex string) and boothash. -/

/-- Models the utf8_decode crate decoder used by decode.rs: decodes a
byte list into unicode code points, none at the first invalid sequence
(the source panics there through expect). -/
def utf8DecodeBytes : List Nat → Option (List Nat)
  | [] => some []
  | b :: rest =>
    if b < 0x80 then (utf8DecodeBytes rest).map (b :: ·)
    else if 0xC2 ≤ b ∧ b ≤ 0xDF then
      match rest with
      | b2 :: rest2 =>
        if 0x80 ≤ b2 ∧ b2 ≤ 0xBF then
          (utf8DecodeBytes rest2).map ((b % 32 * 64 + b2 % 64) :: ·)
        else none
      | [] => none
    else if 0xE0 ≤ b ∧ b ≤ 0xEF then
      match rest with
      | b2 :: b3 :: rest3 =>
        if (0x80 ≤ b2 ∧ b2 ≤ 0xBF) ∧ (0x80 ≤ b3 ∧ b3 ≤ 0xBF) ∧
            (b % 16 * 4096 + b2 % 64 * 64 + b3 % 64 ≥ 0x800) ∧
            ¬(0xD800 ≤ b % 16 * 4096 + b2 % 64 * 64 + b3 % 64 ∧
              b % 16 * 4096 + b2 % 64 * 64 + b3 % 64 ≤ 0xDFFF) then
          (utf8DecodeBytes rest3).map ((b % 16 * 4096 + b2 % 64 * 64 + b3 % 64) :: ·)
        else none
      | _ => none
    else if 0xF0 ≤ b ∧ b ≤ 0xF4 then
      match rest with
      | b2 :: b3 :: b4 :: rest4 =>
        if (0x80 ≤ b2 ∧ b2 ≤ 0xBF) ∧ (0x80 ≤ b3 ∧ b3 ≤ 0xBF) ∧
            (0x80 ≤ b4 ∧ b4 ≤ 0xBF) ∧
            (b % 8 * 262144 + b2 % 64 * 4096 + b3 % 64 * 64 + b4 % 64 ≥ 0x10000) ∧
            (b % 8 * 262144 + b2 % 64 * 4096 + b3 % 64 * 64 + b4 % 64 ≤ 0x10FFFF) then
          (utf8DecodeBytes rest4).map
            ((b % 8 * 262144 + b2 % 64 * 4096 + b3 % 64 * 64 + b4 % 64) :: ·)
        else none
      | _ => none
    else none

/-- Decoded key and value of one attribute slot, as code point lists. -/
structure DecodedAttribute where
  key : List Nat
  value : List Nat
deriving DecidableEq, Repr

/-- Models String::trim_end_matches with the nul character: drops
trailing zero code points. -/
def trimEndZeros (l : List Nat) : List Nat :=
  (l.reverse.dropWhile (fun c => c == 0)).reverse

/-- Embeds fn decode_attribute(step: &[u8]) from attributes/decode.rs.
The utf-8 expect panics and the slice-bound panics are errors. -/
def decode_attribute (step : List Nat) : Except String (Option DecodedAttribute) :=
  if 8 ≤ step.length then
    match utf8DecodeBytes (step.take 8) with
    | none => .error "Error getting key for attributes."
    | some keycps =>
      match step.get? 8 with
      | none => .error "index out of bounds"
      | some vlen =>
        if vlen > 55 ∨ vlen = 0 then .ok none
        else if 9 + vlen ≤ step.length then
          match utf8DecodeBytes ((step.drop 9).take vlen) with
          | none => .error "Error getting key for attributes."
          | some valcps =>
            .ok (some ⟨trimEndZeros keycps, trimEndZeros valcps⟩)
        else .error "range end index out of bounds"
  else .error "range end index out of bounds"

/-- Models String::trim_start_matches with pattern 0x: repeatedly strips
a leading "0x" (code points 48, 120). -/
def trimStartZeroX : List Nat → List Nat
  | 48 :: 120 :: rest => trimStartZeroX rest
  | l => l

/-- Value of one hexadecimal digit code point. -/
def hexDigitVal (c : Nat) : Option Nat :=
  if 48 ≤ c ∧ c ≤ 57 then some (c - 48)
  else if 97 ≤ c ∧ c ≤ 102 then some (c - 87)
  else if 65 ≤ c ∧ c ≤ 70 then some (c - 55)
  else none

/-- Accumulating loop of u64::from_str_radix with radix 16; none models
Err on an invalid digit or u64 overflow. -/
def fromStrRadix16Core : List Nat → Nat → Option Nat
  | [], acc => some acc
  | c :: rest, acc =>
    match hexDigitVal c with
    | none => none
    | some d =>
      if 16 * acc + d < 2 ^ 64 then fromStrRadix16Core rest (16 * acc + d)
      else none

/-- Models u64::from_str_radix(s, 16): an optional leading plus sign,
then at least one hex digit, no overflow. -/
def fromStrRadix16 (l : List Nat) : Option Nat :=
  let l2 := match l with
    | 43 :: rest => rest
    | _ => l
  match l2 with
  | [] => none
  | _ => fromStrRadix16Core l2 0

/-- Fields of SystemAttributes assigned by the slot loop. -/
structure SlotFields where
  board : Option (List Nat)
  arch : Option (List Nat)
  appaddr : Option Nat
  boothash : Option (List Nat)
deriving DecidableEq, Repr

/-- Embeds the slot loop of read_system_attributes_probe
(system_attributes.rs lines 79-123): slot i is decoded; a None decode
skips the slot; slots 0,1,2,3 assign board, arch, appaddr (hex-parsed,
propagating a parse error) and boothash. -/
def processSlots : Nat → List (List Nat) → SlotFields → Except String SlotFields
  | _, [], acc => .ok acc
  | i, s :: rest, acc =>
    match decode_attribute s with
    | .error e => .error e
    | .ok none => processSlots (i + 1) rest acc
    | .ok (some att) =>
      match i with
      | 0 => processSlots (i + 1) rest { acc with board := some att.value }
      | 1 => processSlots (i + 1) rest { acc with arch := some att.value }
      | 2 =>
        match fromStrRadix16 (trimStartZeroX att.value) with
        | none => .error "AttributeParsing InvalidNumber"
        | some v => processSlots (i + 1) rest { acc with appaddr := some v }
      | 3 => processSlots (i + 1) rest { acc with boothash := some att.value }
      | _ + 4 => processSlots (i + 1) rest acc

/-- Field a successfully decoded slot contributes, none when the slot is
skipped (or when the whole loop errored, a case excluded by the
characterization hypothesis). -/
def slotValue (s : List Nat) : Option (List Nat) :=
  match decode_attribute s with
  | .ok (some a) => some a.value
  | _ => none

lemma processSlots_preserve :
    ∀ (slots : List (List Nat)) (i : Nat) (acc r : SlotFields),
      processSlots i slots acc = .ok r →
      (1 ≤ i → r.board = acc.board) ∧ (2 ≤ i → r.arch = acc.arch) ∧
        (3 ≤ i → r.appaddr = acc.appaddr) ∧ (4 ≤ i → r.boothash = acc.boothash) := by
  intro slots
  induction slots with
  | nil =>
    intro i acc r h
    simp [processSlots] at h
    subst h
    exact ⟨fun _ => rfl, fun _ => rfl, fun _ => rfl, fun _ => rfl⟩
  | cons s rest ih =>
    intro i acc r h
    rw [processSlots] at h
    match hdec : decode_attribute s with
    | .error e => rw [hdec] at h; simp at h
    | .ok none =>
      rw [hdec] at h
      simp only at h
      have := ih (i + 1) acc r h
      exact ⟨fun h1 => (this.1 (by omega)), fun h2 => (this.2.1 (by omega)),
        fun h3 => (this.2.2.1 (by omega)), fun h4 => (this.2.2.2 (by omega))⟩
    | .ok (some att) =>
      rw [hdec] at h
      simp only at h
      match i with
      | 0 =>
        have := ih 1 _ r h
        exact ⟨fun h1 => by omega, fun h2 => by omega, fun h3 => by omega,
          fun h4 => by omega⟩
      | 1 =>
        have := ih 2 _ r h
        refine ⟨fun h1 => ?_, fun h2 => by omega, fun h3 => by omega, fun h4 => by omega⟩
        exact (this.1 (by omega)).trans rfl
      | 2 =>
        match hhex : fromStrRadix16 (trimStartZeroX att.value) with
        | none => rw [hhex] at h; simp at h
        | some v =>
          rw [hhex] at h
          have := ih 3 _ r h
          refine ⟨fun h1 => ?_, fun h2 => ?_, fun h3 => by omega, fun h4 => by omega⟩
          · exact (this.1 (by omega)).trans rfl
          · exact (this.2.1 (by omega)).trans rfl
      | 3 =>
        have := ih 4 _ r h
        refine ⟨fun h1 => ?_, fun h2 => ?_, fun h3 => ?_, fun h4 => by omega⟩
        · exact (this.1 (by omega)).trans rfl
        · exact (this.2.1 (by omega)).trans rfl
        · exact (this.2.2.1 (by omega)).trans rfl
      | n + 4 =>
        have := ih (n + 5) acc r h
        exact ⟨fun h1 => this.1 (by omega), fun h2 => this.2.1 (by omega),
          fun h3 => this.2.2.1 (by omega), fun h4 => this.2.2.2 (by omega)⟩

lemma processSlots_peel (i : Nat) (s : List Nat) (rest : List (List Nat))
    (acc r : SlotFields) (h : processSlots i (s :: rest) acc = .ok r) :
    ∃ acc2, processSlots (i + 1) rest acc2 = .ok r ∧
      acc2.board = (if i = 0 then
        (match slotValue s with | some v => some v | none => acc.board) else acc.board) ∧
      acc2.arch = (if i = 1 then
        (match slotValue s with | some v => some v | none => acc.arch) else acc.arch) ∧
      acc2.appaddr = (if i = 2 then
        (match slotValue s with
          | some v => fromStrRadix16 (trimStartZeroX v)
          | none => acc.appaddr) else acc.appaddr) ∧
      acc2.boothash = (if i = 3 then
        (match slotValue s with | some v => some v | none => acc.boothash)
        else acc.boothash) := by
  rw [processSlots] at h
  match hdec : decode_attribute s with
  | .error e => rw [hdec] at h; simp at h
  | .ok none =>
    rw [hdec] at h
    simp only at h
    have hsv : slotValue s = none := by rw [slotValue, hdec]
    refine ⟨acc, h, ?_, ?_, ?_, ?_⟩ <;> rw [hsv] <;> split <;> rfl
  | .ok (some att) =>
    rw [hdec] at h
    simp only at h
    have hsv : slotValue s = some att.value := by rw [slotValue, hdec]
    match i with
    | 0 => exact ⟨_, h, by simp [hsv], by simp, by simp, by simp⟩
    | 1 => exact ⟨_, h, by simp, by simp [hsv], by simp, by simp⟩
    | 2 =>
      match hhex : fromStrRadix16 (trimStartZeroX att.value) with
      | none => rw [hhex] at h; simp at h
      | some v =>
        rw [hhex] at h
        exact ⟨_, h, by simp, by simp, by simp [hsv, hhex], by simp⟩
    | 3 => exact ⟨_, h, by simp, by simp, by simp, by simp [hsv]⟩
    | n + 4 => exact ⟨acc, h, by simp, by simp, by simp, by simp⟩

/-- C10-counterexample. A 64-byte slot whose value-length byte at offset
8 is 255 (greater than 55) but whose key bytes are not valid UTF-8: the
claim says decode_attribute returns None, but the source panics in the
key expect before reaching the vlen check, so decode_attribute errors
instead of returning None. -/
theorem c10_decode_attribute_counterexample :
    (List.replicate 64 255).get? 8 = some 255 ∧ 255 > 55 ∧
      decode_attribute (List.replicate 64 255) =
        .error "Error getting key for attributes." := by
  refine ⟨by decide, by decide, rfl⟩

/-- C10. Corrected claim about attribute slots: (1) for every slot whose
first 8 key bytes decode as UTF-8, a value-length byte at offset 8 equal
to 0 or greater than 55 makes decode_attribute return None (when the key
bytes are invalid UTF-8 the function panics instead); and (2) whenever
the 16-slot loop of read_system_attributes succeeds, each of the four
named fields is exactly the decoding of its own slot: a skipped slot
leaves its field unset and the sibling slots are decoded normally,
independent of it. -/
theorem c10_attribute_slot_skip :
    (∀ (slot : List Nat) (v : Nat), utf8DecodeBytes (slot.take 8) ≠ none →
      slot.get? 8 = some v → v = 0 ∨ v > 55 → decode_attribute slot = .ok none) ∧
    (∀ (s0 s1 s2 s3 : List Nat) (rest : List (List Nat)) (r : SlotFields),
      processSlots 0 (s0 :: s1 :: s2 :: s3 :: rest) ⟨none, none, none, none⟩ = .ok r →
      r.board = slotValue s0 ∧ r.arch = slotValue s1 ∧
        r.appaddr = (slotValue s2).bind (fun v => fromStrRadix16 (trimStartZeroX v)) ∧
        r.boothash = slotValue s3) := by
  constructor
  · intro slot v hutf hv hcond
    have hlt : 8 < slot.length := by
      rcases List.get?_eq_some.mp hv with ⟨hl, _⟩
      exact hl
    unfold decode_attribute
    rw [if_pos (by omega)]
    cases hu : utf8DecodeBytes (slot.take 8) with
    | none => exact absurd hu hutf
    | some k =>
      simp only []
      rw [hv]
      simp only []
      rw [if_pos (by tauto)]
  · intro s0 s1 s2 s3 rest r h
    obtain ⟨a1, h1, e1b, e1a, e1p, e1h⟩ := processSlots_peel 0 s0 _ _ _ h
    obtain ⟨a2, h2, e2b, e2a, e2p, e2h⟩ := processSlots_peel 1 s1 _ _ _ h1
    obtain ⟨a3, h3, e3b, e3a, e3p, e3h⟩ := processSlots_peel 2 s2 _ _ _ h2
    obtain ⟨a4, h4, e4b, e4a, e4p, e4h⟩ := processSlots_peel 3 s3 _ _ _ h3
    have hpres := processSlots_preserve rest 4 a4 r h4
    refine ⟨?_, ?_, ?_, ?_⟩
    · rw [hpres.1 (by omega), e4b, if_neg (by omega), e3b, if_neg (by omega),
        e2b, if_neg (by omega), e1b, if_pos rfl]
      cases hsv : slotValue s0 <;> simp
    · rw [hpres.2.1 (by omega), e4a, if_neg (by omega), e3a, if_neg (by omega),
        e2a, if_pos rfl, e1a, if_neg (by omega)]
      cases hsv : slotValue s1 <;> simp
    · rw [hpres.2.2.1 (by omega), e4p, if_neg (by omega), e3p, if_pos rfl,
        e2p, if_neg (by omega), e1p, if_neg (by omega)]
      cases hsv : slotValue s2 <;> simp
    · rw [hpres.2.2.2 (by omega), e4h, if_pos rfl, e3h, if_neg (by omega),
        e2h, if_neg (by omega), e1h, if_neg (by omega)]
      cases hsv : slotValue s3 <;> simp

/-- Witness for C10: a slot with an ASCII key and vlen 0 decodes to
None, and a concrete four-slot region is read into exactly the decoded
board, arch, appaddr and boothash values. -/
theorem c10_attribute_slot_skip_witness :
    decode_attribute ((97 : Nat) :: List.replicate 63 0) = .ok none ∧
      ((SlotFields.mk (some [110, 114, 102, 53]) (some [118, 55])
          (some 262144) (some [122])).board =
        slotValue ([98, 111, 97, 114, 100, 0, 0, 0, 4, 110, 114, 102, 53] ++
          List.replicate 51 0) ∧
      (SlotFields.mk (some [110, 114, 102, 53]) (some [118, 55])
          (some 262144) (some [122])).arch =
        slotValue ([97, 114, 99, 104, 0, 0, 0, 0, 2, 118, 55] ++
          List.replicate 53 0) ∧
      (SlotFields.mk (some [110, 114, 102, 53]) (some [118, 55])
          (some 262144) (some [122])).appaddr =
        (slotValue ([97, 112, 112, 97, 100, 100, 114, 0, 7, 48, 120, 52, 48, 48, 48, 48] ++
          List.replicate 48 0)).bind (fun v => fromStrRadix16 (trimStartZeroX v)) ∧
      (SlotFields.mk (some [110, 114, 102, 53]) (some [118, 55])
          (some 262144) (some [122])).boothash =
        slotValue ([104, 97, 115, 104, 0, 0, 0, 0, 1, 122] ++
          List.replicate 54 0)) :=
  ⟨c10_attribute_slot_skip.1 ((97 : Nat) :: List.replicate 63 0) 0
      (by decide) (by decide) (Or.inl rfl),
    c10_attribute_slot_skip.2
      ([98, 111, 97, 114, 100, 0, 0, 0, 4, 110, 114, 102, 53] ++ List.replicate 51 0)
      ([97, 114, 99, 104, 0, 0, 0, 0, 2, 118, 55] ++ List.replicate 53 0)
      ([97, 112, 112, 97, 100, 100, 114, 0, 7, 48, 120, 52, 48, 48, 48, 48] ++
        List.replicate 48 0)
      ([104, 97, 115, 104, 0, 0, 0, 0, 1, 122] ++ List.replicate 54 0)
      [] (SlotFields.mk (some [110, 114, 102, 53]) (some [118, 55])
        (some 262144) (some [122])) rfl⟩

/-! ## TBF parsing (tbf-parser crate) and the inventory walk
(attributes/app_attributes.rs)

The tbf-parser crate sources are not part of the repository snapshot
(only its tests are), so the three parse functions below are modelled
from the spec. The inventory walk itself — read_apps_data_probe and
read_apps_data_serial — is embedded from app_attributes.rs. Device flash
is abstracted as a function from addresses to bytes; the serial wire is
abstracted as delivering the requested memory bytes. -/

/-- Bytes of memory as read through the transport at an address. -/
def readMem (flash : Nat → Nat) (addr len : Nat) : List Nat :=
  (List.range len).map (fun k => flash (addr + k))

/-- Modelled from the spec: parse_tbf_header_lengths of the missing
tbf-parser crate. §4.A: over the 8 prologue bytes it returns (version,
header_len, total_len), all little-endian, and fails if header_len is 0
or header_len exceeds total_len. -/
def parse_tbf_header_lengths (b : List Nat) : Option (Nat × Nat × Nat) :=
  match b with
  | [b0, b1, b2, b3, b4, b5, b6, b7] =>
    if le16 b2 b3 = 0 ∨ le32 b4 b5 b6 b7 < le16 b2 b3 then none
    else some (le16 b0 b1, le16 b2 b3, le32 b4 b5 b6 b7)
  | _ => none

/-- Parsed TLV elements: type and payload bytes. The fuel is the buffer
length, an upper bound on the number of TLVs since each consumes at
least 4 bytes. -/
def parseTlvs : Nat → List Nat → Option (List (Nat × List Nat))
  | _, [] => some []
  | fuel + 1, b0 :: b1 :: b2 :: b3 :: rest =>
    if le16 b2 b3 ≤ rest.length then
      (parseTlvs fuel (rest.drop (le16 b2 b3))).map
        ((le16 b0 b1, rest.take (le16 b2 b3)) :: ·)
    else none
  | _, _ => none

/-- Modelled from the spec: the header value parse_tbf_header produces.
§3: a v2 header whose Main TLV is absent (and which holds no Program
TLV) is a padding application; the walk distinguishes exactly the
TbfHeaderV2 constructor from the rest. -/
inductive TbfHeader where
  | TbfHeaderV2 (binary_end : Nat)
  | Padding (total_len : Nat)
deriving DecidableEq, Repr

/-- Modelled from the spec: get_binary_end — the offset at which footers
begin; for an application header it is the Program TLV binary end offset
when present, otherwise the total length (so that no footer is parsed). -/
def get_binary_end : TbfHeader → Nat
  | .TbfHeaderV2 binary_end => binary_end
  | .Padding total_len => total_len

/-- TLV type of the Main element. -/
def TLV_MAIN : Nat := 1

/-- TLV type of the Program element. -/
def TLV_PROGRAM : Nat := 9

/-- Binary end offset carried at bytes 12..16 of a Program TLV payload. -/
def programBinaryEnd (tlvs : List (Nat × List Nat)) : Option Nat :=
  match tlvs.find? (fun tp => tp.1 == TLV_PROGRAM) with
  | some (_, p) =>
    match p.get? 12, p.get? 13, p.get? 14, p.get? 15 with
    | some c0, some c1, some c2, some c3 => some (le32 c0 c1 c2 c3)
    | _, _, _, _ => some 0
  | none => none

/-- Modelled from the spec: parse_tbf_header of the missing tbf-parser
crate. §4.A: for version 2 it checks that the 32-bit XOR of all 4-byte
words of the first header_len bytes is zero, failing with
ChecksumMismatch otherwise, and walks the TLVs after the 16-byte
prologue; a header without Main or Program TLV parses as Padding. -/
def parse_tbf_header (b : List Nat) (version : Nat) : Except String TbfHeader :=
  if version ≠ 2 then .error "UnsupportedVersion"
  else if b.length < 16 then .error "NotEnoughFlash"
  else if xorWords32 b ≠ 0 then .error "ChecksumMismatch"
  else
    match parseTlvs b.length (b.drop 16) with
    | none => .error "BadTlvEntry"
    | some tlvs =>
      let total_len :=
        match b.get? 4, b.get? 5, b.get? 6, b.get? 7 with
        | some b4, some b5, some b6, some b7 => le32 b4 b5 b6 b7
        | _, _, _, _ => 0
      if tlvs.any (fun tp => tp.1 == TLV_MAIN || tp.1 == TLV_PROGRAM) then
        .ok (.TbfHeaderV2 ((programBinaryEnd tlvs).getD total_len))
      else .ok (.Padding total_len)

/-- Modelled from the spec: parse_tbf_footer of the missing tbf-parser
crate. §4.A: reads the 4-byte TLV prefix, classifies the credential kind
from the 4-byte format word, and returns (credentials, payload size)
with the size excluding the TL prefix. The credential record is modelled
as its format word. -/
def parse_tbf_footer (b : List Nat) : Except String (Nat × Nat) :=
  match b with
  | b0 :: b1 :: b2 :: b3 :: rest =>
    if le16 b0 b1 ≠ 0x80 then .error "BadTlvEntry"
    else if le16 b2 b3 < 4 ∨ rest.length < le16 b2 b3 then .error "NotEnoughFlash"
    else
      .ok (match rest with
        | c0 :: c1 :: c2 :: c3 :: _ => le32 c0 c1 c2 c3
        | _ => 0, le16 b2 b3)
  | _ => .error "NotEnoughFlash"

/-- One inventory entry, mirroring AppAttributes of app_attributes.rs:
base address, parsed header and the (credentials, size) footers. -/
structure AppAttributes where
  address : Nat
  tbf_header : TbfHeader
  tbf_footers : List (Nat × Nat)
deriving DecidableEq, Repr

/-- Embeds the footer loop of read_apps_data_probe (app_attributes.rs
lines 140-157): while footer_offset < total_size, read the remaining
footer bytes, parse one footer and advance by its size plus 4. Each
iteration advances by at least 4, so fuel total_size + 1 never runs
out. -/
def footerLoopProbe (flash : Nat → Nat) (appaddr total_size binary_end : Nat) :
    Nat → Nat → List (Nat × Nat) → Except String (List (Nat × Nat))
  | 0, _, _ => .error "fuel"
  | fuel + 1, footer_offset, acc =>
    if footer_offset < total_size then
      match parse_tbf_footer (readMem flash (appaddr + footer_offset)
          ((total_size - binary_end) - (footer_offset - binary_end))) with
      | .error e => .error ("InvalidAppTbfHeader " ++ e)
      | .ok (creds, size) =>
        footerLoopProbe flash appaddr total_size binary_end fuel
          (footer_offset + size + 4) (acc ++ [(creds, size)])
    else .ok acc

/-- Embeds read_apps_data_probe of app_attributes.rs: starting at the
application base address, parse the prologue — stopping with the
inventory collected so far when it fails — then parse the whole header,
propagating its error as InvalidAppTbfHeader; padding headers are walked
over; otherwise footers are collected and the app is appended. The fuel
bounds the number of loop iterations; none means it ran out. Checked
u64/u32 arithmetic panics are errors. -/
def read_apps_data_probe (flash : Nat → Nat) :
    Nat → Nat → List AppAttributes → Option (Except String (List AppAttributes))
  | 0, _, _ => none
  | fuel + 1, appaddr, acc =>
    match parse_tbf_header_lengths (readMem flash appaddr 8) with
    | none => some (.ok acc)
    | some (tbf_version, header_size, total_size) =>
      match parse_tbf_header (readMem flash appaddr header_size) tbf_version with
      | .error e => some (.error ("InvalidAppTbfHeader " ++ e))
      | .ok header =>
        match header with
        | .Padding _ =>
          if appaddr + total_size < 2 ^ 64 then
            read_apps_data_probe flash fuel (appaddr + total_size) acc
          else some (.error "attempt to add with overflow")
        | .TbfHeaderV2 _ =>
          let binary_end := get_binary_end header
          if total_size < binary_end then
            some (.error "attempt to subtract with overflow")
          else
            match footerLoopProbe flash appaddr total_size binary_end
                (total_size + 1) binary_end [] with
            | .error e => some (.error e)
            | .ok footers =>
              if appaddr + total_size < 2 ^ 64 then
                read_apps_data_probe flash fuel (appaddr + total_size)
                  (acc ++ [⟨appaddr, header, footers⟩])
              else some (.error "attempt to add with overflow")

/-- Embeds the footer loop of read_apps_data_serial (app_attributes.rs
lines 265-296): the footer read address is the u32-truncated appaddr
plus the footer offset, a checked u32 addition. -/
def footerLoopSerial (flash : Nat → Nat) (appaddr total_size binary_end : Nat) :
    Nat → Nat → List (Nat × Nat) → Except String (List (Nat × Nat))
  | 0, _, _ => .error "fuel"
  | fuel + 1, footer_offset, acc =>
    if footer_offset < total_size then
      if appaddr % 2 ^ 32 + footer_offset < 2 ^ 32 then
        match parse_tbf_footer (readMem flash (appaddr % 2 ^ 32 + footer_offset)
            ((total_size - binary_end) - (footer_offset - binary_end))) with
        | .error e => .error ("InvalidAppTbfHeader " ++ e)
        | .ok (creds, size) =>
          footerLoopSerial flash appaddr total_size binary_end fuel
            (footer_offset + size + 4) (acc ++ [(creds, size)])
      else .error "attempt to add with overflow"
    else .ok acc

/-- Embeds read_apps_data_serial of app_attributes.rs: identical control
flow to the probe walk — a prologue parse failure breaks out of the loop
and the accumulated inventory is returned Ok, a header parse failure
propagates — but every ReadRange request carries the address truncated
to u32. -/
def read_apps_data_serial (flash : Nat → Nat) :
    Nat → Nat → List AppAttributes → Option (Except String (List AppAttributes))
  | 0, _, _ => none
  | fuel + 1, appaddr, acc =>
    match parse_tbf_header_lengths (readMem flash (appaddr % 2 ^ 32) 8) with
    | none => some (.ok acc)
    | some (tbf_version, header_size, total_size) =>
      match parse_tbf_header (readMem flash (appaddr % 2 ^ 32) header_size)
          tbf_version with
      | .error e => some (.error ("InvalidAppTbfHeader " ++ e))
      | .ok header =>
        match header with
        | .Padding _ =>
          if appaddr + total_size < 2 ^ 64 then
            read_apps_data_serial flash fuel (appaddr + total_size) acc
          else some (.error "attempt to add with overflow")
        | .TbfHeaderV2 _ =>
          let binary_end := get_binary_end header
          if total_size < binary_end then
            some (.error "attempt to subtract with overflow")
          else
            match footerLoopSerial flash appaddr total_size binary_end
                (total_size + 1) binary_end [] with
            | .error e => some (.error e)
            | .ok footers =>
              if appaddr + total_size < 2 ^ 64 then
                read_apps_data_serial flash fuel (appaddr + total_size)
                  (acc ++ [⟨appaddr, header, footers⟩])
              else some (.error "attempt to add with overflow")

/-- Flash image with one TBF prologue at address 0 — version 2, header
length 16, total length 32 — whose checksum word is stored as 0 although
the XOR of the other words is nonzero; everything past it reads 0. -/
def c1flash (a : Nat) : Nat :=
  ([2, 0, 16, 0, 32, 0, 0, 0, 1, 0, 0, 0, 0, 0, 0, 0] : List Nat).getD a 0

/-- C1-counterexample. A device state on which the 8-byte prologue
parses (header length 16, total 32) but parse_tbf_header fails with a
checksum mismatch: both inventory walks return the error
InvalidAppTbfHeader — propagated through the question mark operator at
app_attributes.rs lines 115-116 and 247-248 — and not, as the claim
states, Ok with the inventory accumulated so far (here Ok []). -/
theorem c1_walk_counterexample :
    parse_tbf_header_lengths (readMem c1flash 0 8) = some (2, 16, 32) ∧
      parse_tbf_header (readMem c1flash 0 16) 2 = .error "ChecksumMismatch" ∧
      read_apps_data_probe c1flash 5 0 [] =
        some (.error "InvalidAppTbfHeader ChecksumMismatch") ∧
      read_apps_data_serial c1flash 5 0 [] =
        some (.error "InvalidAppTbfHeader ChecksumMismatch") ∧
      (some (Except.error "InvalidAppTbfHeader ChecksumMismatch") :
        Option (Except String (List AppAttributes))) ≠ some (.ok []) := by
  refine ⟨rfl, rfl, rfl, rfl, by simp⟩

/-- C1. Corrected behaviour of the inventory walks: only a failure of
the 8-byte prologue parse terminates the walk gracefully with the
inventory accumulated so far; a failure of parse_tbf_header on the
header_len bytes is surfaced as an InvalidAppTbfHeader error instead,
for the probe walk and the serial walk alike (the serial walk reads at
the u32-truncated address). -/
theorem c1_walk_parse_failure_behaviour :
    (∀ (flash : Nat → Nat) (addr : Nat) (acc : List AppAttributes) (fuel v hl tl : Nat)
      (e : String),
      parse_tbf_header_lengths (readMem flash addr 8) = some (v, hl, tl) →
      parse_tbf_header (readMem flash addr hl) v = .error e →
      read_apps_data_probe flash (fuel + 1) addr acc =
        some (.error ("InvalidAppTbfHeader " ++ e))) ∧
    (∀ (flash : Nat → Nat) (addr : Nat) (acc : List AppAttributes) (fuel : Nat),
      parse_tbf_header_lengths (readMem flash addr 8) = none →
      read_apps_data_probe flash (fuel + 1) addr acc = some (.ok acc)) ∧
    (∀ (flash : Nat → Nat) (addr : Nat) (acc : List AppAttributes) (fuel v hl tl : Nat)
      (e : String),
      parse_tbf_header_lengths (readMem flash (addr % 2 ^ 32) 8) = some (v, hl, tl) →
      parse_tbf_header (readMem flash (addr % 2 ^ 32) hl) v = .error e →
      read_apps_data_serial flash (fuel + 1) addr acc =
        some (.error ("InvalidAppTbfHeader " ++ e))) ∧
    (∀ (flash : Nat → Nat) (addr : Nat) (acc : List AppAttributes) (fuel : Nat),
      parse_tbf_header_lengths (readMem flash (addr % 2 ^ 32) 8) = none →
      read_apps_data_serial flash (fuel + 1) addr acc = some (.ok acc)) := by
  refine ⟨?_, ?_, ?_, ?_⟩
  · intro flash addr acc fuel v hl tl e h1 h2
    rw [read_apps_data_probe, h1]
    simp only []
    rw [h2]
  · intro flash addr acc fuel h1
    rw [read_apps_data_probe, h1]
  · intro flash addr acc fuel v hl tl e h1 h2
    rw [read_apps_data_serial, h1]
    simp only []
    rw [h2]
  · intro flash addr acc fuel h1
    rw [read_apps_data_serial, h1]

/-- Witness for C1: on the concrete flash image, the walks surface the
checksum error of the header at address 0 and return Ok [] at address
4096 where the prologue parse fails. -/
theorem c1_walk_parse_failure_behaviour_witness :
    read_apps_data_probe c1flash (2 + 1) 0 [] =
      some (.error ("InvalidAppTbfHeader " ++ "ChecksumMismatch")) ∧
    read_apps_data_probe c1flash (2 + 1) 4096 [] = some (.ok []) ∧
    read_apps_data_serial c1flash (2 + 1) 0 [] =
      some (.error ("InvalidAppTbfHeader " ++ "ChecksumMismatch")) ∧
    read_apps_data_serial c1flash (2 + 1) 4096 [] = some (.ok []) :=
  ⟨c1_walk_parse_failure_behaviour.1 c1flash 0 [] 2 2 16 32 "ChecksumMismatch" rfl rfl,
    c1_walk_parse_failure_behaviour.2.1 c1flash 4096 [] 2 rfl,
    c1_walk_parse_failure_behaviour.2.2.1 c1flash 0 [] 2 2 16 32 "ChecksumMismatch" rfl rfl,
    c1_walk_parse_failure_behaviour.2.2.2 c1flash 4096 [] 2 rfl⟩

/-! ## Placement planner (command_impl/reshuffle_apps.rs)

reshuffle_apps assigns every app its index, splits the apps into
Flexible (c_apps) and Fixed (rust_apps), sorts the Fixed apps by their
first candidate flash address, returns None when a Fixed app has no
candidate addresses, and then walks up to 100000 permutations of the
Flexible apps, placing apps left to right from the start address —
padding Flexible apps up to the next page boundary and Fixed apps up to
their next candidate address at or past the cursor — keeping the
configuration of minimum total padding, with zero padding
short-circuiting. Checked u64/usize arithmetic, out-of-bounds indexing
and expect/unwrap panics are errors. Loops are embedded with an explicit
fuel that strictly exceeds the number of remaining iterations at every
call site, so the fuel branch is never taken. -/

/-- Modelled from the spec (§3): the BoardSettings variant the planner
uses carries arch, start_address and page_size; the board_settings.rs in
this snapshot predates the page_size field that reshuffle_apps.rs
reads. -/
structure BoardSettings where
  arch : Option String
  start_address : Nat
  page_size : Nat

/-- Embeds struct FlexibleApp of reshuffle_apps.rs. -/
structure FlexibleApp where
  installed : Bool
  idx : Option Nat
  size : Nat
deriving DecidableEq, Repr

/-- Embeds struct FixedApp of reshuffle_apps.rs; each candidate is an
optional (flash, ram) address pair. -/
structure FixedApp where
  installed : Bool
  idx : Option Nat
  compatible_addresses : List (Option (Nat × Nat))
  size : Nat
deriving DecidableEq, Repr

/-- Embeds enum TockApp of reshuffle_apps.rs. -/
inductive TockApp where
  | Flexible (f : FlexibleApp)
  | Fixed (f : FixedApp)
deriving DecidableEq, Repr

/-- Size in bytes of an app of either kind. -/
def appSize : TockApp → Nat
  | .Flexible f => f.size
  | .Fixed f => f.size

/-- Embeds struct Index of reshuffle_apps.rs, one placement entry. -/
structure Index where
  installed : Bool
  idx : Option Nat
  fixed : Bool
  ram_address : Option Nat
  address : Nat
  size : Nat
deriving DecidableEq, Repr

/-- Embeds TockApp::replace_idx (the Option it returns only feeds a
warning, so only the updated app matters). -/
def TockApp.replaceIdx : TockApp → Nat → TockApp
  | .Flexible f, i => .Flexible { f with idx := some i }
  | .Fixed f, i => .Fixed { f with idx := some i }

/-- Embeds the enumerate loop at the start of reshuffle_apps: app k gets
index k. -/
def assignIndices : Nat → List TockApp → List TockApp
  | _, [] => []
  | i, a :: rest => a.replaceIdx i :: assignIndices (i + 1) rest

/-- Embeds FlexibleApp::as_index. -/
def FlexibleApp.asIndex (f : FlexibleApp) (ram : Option Nat) (addr : Nat) : Index :=
  ⟨f.installed, f.idx, false, ram, addr, f.size⟩

/-- Embeds FixedApp::as_index. -/
def FixedApp.asIndex (f : FixedApp) (ram : Option Nat) (addr : Nat) : Index :=
  ⟨f.installed, f.idx, true, ram, addr, f.size⟩

/-- usize::MAX on the 64-bit targets the tool runs on. -/
def USIZE_MAX : Nat := 2 ^ 64 - 1

/-- Models u64::is_multiple_of: for a zero divisor it is self == 0. -/
def isMultipleOf (a n : Nat) : Bool :=
  if n = 0 then a == 0 else a % n == 0

/-- The sort key extraction of reshuffle_apps line 191:
compatible_addresses[0].unwrap().0 — indexing an empty candidate list or
unwrapping a None candidate panics. -/
def fixedSortKey (a : FixedApp) : Except String Nat :=
  match a.compatible_addresses.get? 0 with
  | none => .error "index out of bounds"
  | some none => .error "called Option::unwrap on a None value"
  | some (some p) => .ok p.1

/-- Embeds rust_apps.sort_by_key of reshuffle_apps line 191: a stable
sort by first candidate flash address. Rust evaluates the key closure
only during comparisons, so for fewer than two elements no key is
computed and no panic can occur; for two or more every element is
compared at least once, so every key is evaluated. -/
def sortFixed (apps : List FixedApp) : Except String (List FixedApp) :=
  if apps.length < 2 then .ok apps
  else
    match mapExcept (fun a => (fixedSortKey a).map (fun k => (k, a))) apps with
    | .error e => .error e
    | .ok keyed =>
      .ok ((List.insertionSort (fun x y => x.1 ≤ y.1) keyed).map (·.2))

/-- All selections of one element out of a list, each with the remaining
elements in order. -/
def pickEach : List Nat → List (Nat × List Nat)
  | [] => []
  | x :: xs => (x, xs) :: (pickEach xs).map (fun p => (p.1, x :: p.2))

/-- Permutations in the lexicographic-by-position order that
itertools::permutations produces; the fuel equals the list length. -/
def lexPermsF : Nat → List Nat → List (List Nat)
  | _, [] => [[]]
  | 0, _ :: _ => []
  | fuel + 1, l => (pickEach l).flatMap (fun p => (lexPermsF fuel p.2).map (p.1 :: ·))

/-- Embeds (0..c_apps.len()).permutations(c_apps.len()). -/
def lexPerms (l : List Nat) : List (List Nat) := lexPermsF l.length l

/-- Embeds the compatible_index advance loops of reshuffle_apps (lines
228-238 and 251-268): advance until a candidate at or past the cursor is
found; indexing past the end of the candidate list or meeting a None
candidate panics. The fuel passed by callers exceeds the list length, so
it never runs out. -/
def scanCompat : Nat → List (Option (Nat × Nat)) → Nat → Nat → Except String Nat
  | 0, _, _, _ => .error "fuel"
  | fuel + 1, cands, ci, address =>
    match cands.get? ci with
    | none => .error "index out of bounds"
    | some none => .error "No available binary (idk)"
    | some (some p) =>
      if address ≤ p.1 then .ok ci
      else scanCompat fuel cands (ci + 1) address

/-- The app the inner loop of reshuffle_apps decides to insert next:
either the next Flexible app of the permutation (remembering the
advanced compatible index) or the next Fixed app at candidate index ci. -/
inductive StepAction where
  | insertFlexible (cIdx : Nat) (ci : Nat)
  | insertFixed (ci : Nat)
deriving DecidableEq, Repr

/-- Embeds the insert_c decision of reshuffle_apps lines 224-275: with a
Flexible app remaining and a Fixed app remaining, the Flexible app is
inserted only if it fits before the Fixed app's next viable candidate
address; with only one kind remaining that kind is inserted; with none,
the loop breaks (none). -/
def decideNext (cApps : List FlexibleApp) (rustApps : List FixedApp)
    (ordRem : List Nat) (rustIdx compatIdx address : Nat) :
    Except String (Option StepAction) :=
  match ordRem with
  | cIdx :: _ =>
    match rustApps.get? rustIdx with
    | some ra =>
      match scanCompat (ra.compatible_addresses.length + 1)
          ra.compatible_addresses compatIdx address with
      | .error e => .error e
      | .ok ci =>
        match ra.compatible_addresses.get? ci with
        | some (some cand) =>
          match cApps.get? cIdx with
          | none => .error "index out of bounds"
          | some cApp =>
            if cApp.size ≤ cand.1 - address then .ok (some (.insertFlexible cIdx ci))
            else .ok (some (.insertFixed ci))
        | _ => .error "No candidate (1)"
    | none => .ok (some (.insertFlexible cIdx compatIdx))
  | [] =>
    match rustApps.get? rustIdx with
    | some ra =>
      match scanCompat (ra.compatible_addresses.length + 1)
          ra.compatible_addresses compatIdx address with
      | .error e => .error e
      | .ok ci => .ok (some (.insertFixed ci))
    | none => .ok none

/-- Embeds the needed_padding computation of reshuffle_apps lines
281-294: page alignment for a Flexible app (a remainder by a zero page
size panics), distance to the chosen candidate address for a Fixed app. -/
def paddingFor (S : BoardSettings) (rustApps : List FixedApp)
    (rustIdx : Nat) (act : StepAction) (address : Nat) : Except String Nat :=
  match act with
  | .insertFlexible _ _ =>
    if isMultipleOf address S.page_size then .ok 0
    else if S.page_size = 0 then
      .error "attempt to calculate the remainder with a divisor of zero"
    else .ok (S.page_size - address % S.page_size)
  | .insertFixed ci =>
    match rustApps.get? rustIdx with
    | some ra =>
      match ra.compatible_addresses.get? ci with
      | some (some cand) => .ok (cand.1 - address)
      | _ => .error "No compatible address! (3)"
    | none => .error "index out of bounds"

/-- Address one past the last placed entry, or the start address when
nothing is placed yet — the expression reordered_apps.last().map_or of
reshuffle_apps lines 219-222. -/
def cursorOf (S : BoardSettings) (acc : List Index) : Nat :=
  match acc.getLast? with
  | none => S.start_address
  | some a => a.address + a.size

/-- True when computing the cursor does not overflow u64. -/
def cursorOk (S : BoardSettings) (acc : List Index) : Bool :=
  match acc.getLast? with
  | none => true
  | some a => decide (a.address + a.size < 2 ^ 64)

/-- Embeds the per-permutation placement loop of reshuffle_apps lines
216-344. State: the remaining permutation indices, the next Fixed app
index, the persistent compatible index, the entries placed so far and
the accumulated padding. Each iteration inserts exactly one app, so any
fuel exceeding the number of remaining apps never runs out. -/
def placeLoop (S : BoardSettings) (cApps : List FlexibleApp) (rustApps : List FixedApp) :
    Nat → List Nat → Nat → Nat → List Index → Nat → Except String (List Index × Nat)
  | 0, _, _, _, _, _ => .error "fuel"
  | fuel + 1, ordRem, rustIdx, compatIdx, acc, totalPad =>
    if cursorOk S acc then
      let address := cursorOf S acc
      match decideNext cApps rustApps ordRem rustIdx compatIdx address with
      | .error e => .error e
      | .ok none => .ok (acc, totalPad)
      | .ok (some act) =>
        match paddingFor S rustApps rustIdx act address with
        | .error e => .error e
        | .ok needed =>
          match (if 0 < needed then
              if totalPad + needed < 2 ^ 64 then
                if address + needed < 2 ^ 64 then
                  .ok (acc ++ [⟨false, none, false, none, address, needed⟩],
                    totalPad + needed)
                else .error "attempt to add with overflow"
              else .error "attempt to add with overflow"
            else .ok (acc, totalPad) : Except String (List Index × Nat)) with
          | .error e => .error e
          | .ok (acc2, totalPad2) =>
            match act with
            | .insertFlexible cIdx ci =>
              match cApps.get? cIdx with
              | none => .error "index out of bounds"
              | some cApp =>
                if cApp.idx.isNone then .error "C app has no index assigned!"
                else
                  placeLoop S cApps rustApps fuel ordRem.tail rustIdx ci
                    (acc2 ++ [cApp.asIndex none (address + needed)]) totalPad2
            | .insertFixed ci =>
              match rustApps.get? rustIdx with
              | some ra =>
                match ra.compatible_addresses.get? ci with
                | some (some cand) =>
                  if ra.idx.isNone then .error "Rust app has no index assigned!"
                  else
                    placeLoop S cApps rustApps fuel ordRem (rustIdx + 1) ci
                      (acc2 ++ [ra.asIndex (some cand.2) cand.1]) totalPad2
                | _ => .error "No compatible address! (4)"
              | none => .error "index out of bounds"
    else .error "attempt to add with overflow"

/-- Embeds the permutation search of reshuffle_apps lines 208-357: run
the placement for each permutation in order, remember the configuration
of minimum total padding, and stop early at zero padding. -/
def searchLoop (S : BoardSettings) (cApps : List FlexibleApp)
    (rustApps : List FixedApp) :
    List (List Nat) → Nat → List Index → Except String (List Index)
  | [], _, saved => .ok saved
  | order :: rest, minPad, saved =>
    match placeLoop S cApps rustApps (order.length + rustApps.length + 1)
        order 0 0 [] 0 with
    | .error e => .error e
    | .ok (cfg, pad) =>
      if pad < minPad then
        if pad = 0 then .ok cfg
        else searchLoop S cApps rustApps rest pad cfg
      else searchLoop S cApps rustApps rest minPad saved

/-- Embeds pub fn reshuffle_apps of reshuffle_apps.rs. -/
def reshuffle_apps (settings : BoardSettings) (installed_apps : List TockApp) :
    Except String (Option (List Index)) :=
  let apps := assignIndices 0 installed_apps
  let cApps := apps.filterMap (fun a => match a with
    | .Flexible f => some f
    | .Fixed _ => none)
  let rustApps0 := apps.filterMap (fun a => match a with
    | .Fixed f => some f
    | .Flexible _ => none)
  match sortFixed rustApps0 with
  | .error e => .error e
  | .ok rustApps =>
    if rustApps.any (fun a => a.compatible_addresses.isEmpty) then .ok none
    else
      match searchLoop settings cApps rustApps
          ((lexPerms (List.range cApps.length)).take 100000) USIZE_MAX [] with
      | .error e => .error e
      | .ok cfg => .ok (some cfg)

lemma mem_assignIndices (apps : List TockApp) (fa : FixedApp)
    (hmem : TockApp.Fixed fa ∈ apps) :
    ∀ i, ∃ j, TockApp.Fixed { fa with idx := some j } ∈ assignIndices i apps := by
  induction apps with
  | nil => cases hmem
  | cons a rest ih =>
    intro i
    rcases List.mem_cons.mp hmem with ha | ha
    · subst ha
      exact ⟨i, List.mem_cons_self _ _⟩
    · obtain ⟨j, hj⟩ := ih ha (i + 1)
      exact ⟨j, List.mem_cons_of_mem _ hj⟩

/-- C7-counterexample. Two Fixed apps, one of them with an empty
candidate list: the claim says reshuffle_apps returns None, but the sort
key extraction at line 191 indexes compatible_addresses[0] of the empty
list before the emptiness check at lines 195-200 is ever reached, so the
function panics (an index out of bounds) instead of returning None. -/
theorem c7_reshuffle_counterexample :
    reshuffle_apps ⟨none, 0x40000, 512⟩
        [.Fixed ⟨false, none, [], 100⟩,
          .Fixed ⟨false, none, [some (0x40000, 0x20000000)], 200⟩] =
      .error "index out of bounds" ∧
      (Except.error "index out of bounds" :
        Except String (Option (List Index))) ≠ .ok none := by
  exact ⟨rfl, by simp⟩

/-- C7. Corrected claim: when some Fixed app has no candidate addresses,
reshuffle_apps never returns a configuration — with at most one Fixed
app it returns None through the explicit check, and with two or more it
panics inside the sort key extraction before that check — and
infeasible placements likewise panic inside the candidate scan rather
than producing None. -/
theorem c7_reshuffle_no_candidates (settings : BoardSettings)
    (apps : List TockApp)
    (hex : ∃ fa, TockApp.Fixed fa ∈ apps ∧ fa.compatible_addresses = []) :
    ∀ cfg, reshuffle_apps settings apps ≠ .ok (some cfg) := by
  intro cfg hok
  obtain ⟨fa, hmem, hemp⟩ := hex
  obtain ⟨j, hmem2⟩ := mem_assignIndices apps fa hmem 0
  have hmem3 : ({ fa with idx := some j } : FixedApp) ∈
      (assignIndices 0 apps).filterMap (fun a => match a with
        | .Fixed f => some f
        | .Flexible _ => none) :=
    List.mem_filterMap.mpr ⟨_, hmem2, rfl⟩
  rw [reshuffle_apps] at hok
  match hsort : sortFixed ((assignIndices 0 apps).filterMap (fun a => match a with
      | .Fixed f => some f
      | .Flexible _ => none)) with
  | .error e => rw [hsort] at hok; simp at hok
  | .ok rust =>
    rw [hsort] at hok
    simp only [] at hok
    by_cases hlen : ((assignIndices 0 apps).filterMap (fun a => match a with
        | .Fixed f => some f
        | .Flexible _ => none)).length < 2
    · have hid : sortFixed ((assignIndices 0 apps).filterMap (fun a => match a with
          | .Fixed f => some f
          | .Flexible _ => none)) = .ok ((assignIndices 0 apps).filterMap
            (fun a => match a with
          | .Fixed f => some f
          | .Flexible _ => none)) := by
        rw [sortFixed, if_pos hlen]
      rw [hid] at hsort
      have hrust : rust = (assignIndices 0 apps).filterMap (fun a => match a with
          | .Fixed f => some f
          | .Flexible _ => none) := by
        cases hsort
        rfl
      have hany : rust.any (fun a => a.compatible_addresses.isEmpty) = true := by
        rw [hrust]
        exact List.any_eq_true.mpr ⟨_, hmem3, by simp [hemp]⟩
      rw [if_pos hany] at hok
      simp at hok
    · rw [sortFixed, if_neg hlen] at hsort
      match hmex : mapExcept (fun a => (fixedSortKey a).map (fun k => (k, a)))
          ((assignIndices 0 apps).filterMap (fun a => match a with
            | .Fixed f => some f
            | .Flexible _ => none)) with
      | .error e => rw [hmex] at hsort; simp at hsort
      | .ok keyed =>
        obtain ⟨y, _, hy⟩ := mapExcept_mem_image hmex _ hmem3
        rw [show fixedSortKey { fa with idx := some j } =
            .error "index out of bounds" from by rw [fixedSortKey, hemp]; rfl] at hy
        simp [Except.map] at hy

/-- Witness for C7: the corrected theorem applied to the two-Fixed-app
input whose first app has no candidates. -/
theorem c7_reshuffle_no_candidates_witness :
    reshuffle_apps ⟨none, 0x40000, 512⟩
        [.Fixed ⟨false, none, [], 100⟩,
          .Fixed ⟨false, none, [some (0x40000, 0x20000000)], 200⟩] ≠
      .ok (some []) :=
  c7_reshuffle_no_candidates ⟨none, 0x40000, 512⟩
    [.Fixed ⟨false, none, [], 100⟩,
      .Fixed ⟨false, none, [some (0x40000, 0x20000000)], 200⟩]
    ⟨⟨false, none, [], 100⟩, List.mem_cons_self _ _, rfl⟩ []

/-! ## Invariants of the placement loop -/

/-- The entries of l are contiguous starting at cursor c: each entry
begins where its predecessor ended. -/
def ChainFrom : Nat → List Index → Prop
  | _, [] => True
  | c, e :: rest => e.address = c ∧ ChainFrom (e.address + e.size) rest

/-- Cursor after the last entry of l, starting from c. -/
def listEnd : Nat → List Index → Nat
  | c, [] => c
  | _, e :: rest => listEnd (e.address + e.size) rest

/-- Total size of the entries of l. -/
def sumSizes (l : List Index) : Nat := (l.map (fun e => e.size)).sum

/-- Total size of the padding entries (no app index) of l. -/
def padSum (l : List Index) : Nat :=
  ((l.filter (fun e => e.idx.isNone)).map (fun e => e.size)).sum

/-- Total size of the app entries (with an app index) of l. -/
def appSum (l : List Index) : Nat :=
  ((l.filter (fun e => !e.idx.isNone)).map (fun e => e.size)).sum

/-- Sizes of the Flexible apps selected by a permutation fragment. -/
def ordSizes (cApps : List FlexibleApp) (ord : List Nat) : Nat :=
  ((ord.filterMap (fun j => (cApps.get? j).map (fun f => f.size)))).sum

/-- Sizes of the Fixed apps from position ri on. -/
def rustSizes (rustApps : List FixedApp) (ri : Nat) : Nat :=
  (((rustApps.drop ri)).map (fun f => f.size)).sum

lemma chainFrom_listEnd : ∀ (l : List Index) (c : Nat), ChainFrom c l →
    listEnd c l = c + sumSizes l := by
  intro l
  induction l with
  | nil => intro c _; simp [listEnd, sumSizes]
  | cons e rest ih =>
    intro c hch
    obtain ⟨he, hrest⟩ := hch
    have h2 := ih (e.address + e.size) hrest
    rw [listEnd, h2]
    simp [sumSizes]
    omega

lemma listEnd_eq_getLast : ∀ (l : List Index) (c : Nat),
    (match l.getLast? with
      | none => c
      | some a => a.address + a.size) = listEnd c l := by
  intro l
  induction l with
  | nil => intro c; rfl
  | cons e rest ih =>
    intro c
    match hr : rest with
    | [] => rfl
    | f :: rest2 =>
      rw [List.getLast?_cons_cons]
      exact ih (e.address + e.size)

lemma chainFrom_le : ∀ (l : List Index) (c : Nat), ChainFrom c l →
    ∀ e ∈ l, c ≤ e.address := by
  intro l
  induction l with
  | nil => intro c _ e he; cases he
  | cons f rest ih =>
    intro c hch e he
    obtain ⟨hf, hrest⟩ := hch
    rcases List.mem_cons.mp he with he | he
    · subst he
      omega
    · have := ih (f.address + f.size) hrest e he
      omega

lemma chainFrom_pairwise : ∀ (l : List Index) (c : Nat), ChainFrom c l →
    (∀ e ∈ l, 0 < e.size) →
    l.Pairwise (fun a b => a.address < b.address) := by
  intro l
  induction l with
  | nil => intro c _ _; exact List.Pairwise.nil
  | cons f rest ih =>
    intro c hch hpos
    obtain ⟨hf, hrest⟩ := hch
    refine List.Pairwise.cons ?_ (ih (f.address + f.size) hrest
      (fun e he => hpos e (List.mem_cons_of_mem _ he)))
    intro e he
    have h1 := chainFrom_le rest (f.address + f.size) hrest e he
    have h2 := hpos f (List.mem_cons_self _ _)
    omega

lemma chainFrom_append2 (l2 : List Index) (c : Nat) (e : Index)
    (he : e.address = c) (h2 : ChainFrom (e.address + e.size) l2) :
    ChainFrom c (e :: l2) := ⟨he, h2⟩

lemma listEnd_concat (c : Nat) (l : List Index) (e : Index) :
    listEnd c (l ++ [e]) = e.address + e.size := by
  induction l generalizing c with
  | nil => rfl
  | cons f rest ih => exact ih (f.address + f.size)

lemma cursorOf_eq_listEnd (S : BoardSettings) (acc : List Index) :
    cursorOf S acc = listEnd S.start_address acc := by
  rw [cursorOf]
  exact listEnd_eq_getLast acc S.start_address

lemma scanCompat_ok : ∀ (fuel : Nat) (cands : List (Option (Nat × Nat)))
    (ci addr ci2 : Nat), scanCompat fuel cands ci addr = .ok ci2 →
    ∃ cand, cands.get? ci2 = some (some cand) ∧ addr ≤ cand.1 := by
  intro fuel
  induction fuel with
  | zero => intro cands ci addr ci2 h; simp [scanCompat] at h
  | succ fuel ih =>
    intro cands ci addr ci2 h
    rw [scanCompat] at h
    match hc : cands.get? ci with
    | none => rw [hc] at h; simp at h
    | some none => rw [hc] at h; simp at h
    | some (some p) =>
      rw [hc] at h
      simp only [] at h
      by_cases hle : addr ≤ p.1
      · rw [if_pos hle] at h
        simp at h
        subst h
        exact ⟨p, hc, hle⟩
      · rw [if_neg hle] at h
        exact ih cands (ci + 1) addr ci2 h

lemma decideNext_flex {cApps : List FlexibleApp} {rustApps : List FixedApp}
    {ordRem : List Nat} {rustIdx compatIdx address cIdx ci : Nat}
    (h : decideNext cApps rustApps ordRem rustIdx compatIdx address =
      .ok (some (.insertFlexible cIdx ci))) :
    ordRem.head? = some cIdx := by
  match hord : ordRem with
  | [] =>
    simp only [decideNext] at h
    match hr : rustApps.get? rustIdx with
    | none => rw [hr] at h; simp at h
    | some ra =>
      rw [hr] at h
      simp only [] at h
      match hs : scanCompat (ra.compatible_addresses.length + 1)
          ra.compatible_addresses compatIdx address with
      | .error e => rw [hs] at h; simp at h
      | .ok ci0 => rw [hs] at h; simp at h
  | c0 :: tail =>
    simp only [decideNext] at h
    match hr : rustApps.get? rustIdx with
    | none =>
      rw [hr] at h
      simp only [] at h
      cases h
      rfl
    | some ra =>
      rw [hr] at h
      simp only [] at h
      match hs : scanCompat (ra.compatible_addresses.length + 1)
          ra.compatible_addresses compatIdx address with
      | .error e => rw [hs] at h; simp at h
      | .ok ci0 =>
        rw [hs] at h
        simp only [] at h
        match hcand : ra.compatible_addresses.get? ci0 with
        | none => rw [hcand] at h; simp at h
        | some none => rw [hcand] at h; simp at h
        | some (some cand) =>
          rw [hcand] at h
          simp only [] at h
          match hcapp : cApps.get? c0 with
          | none => rw [hcapp] at h; simp at h
          | some cApp =>
            rw [hcapp] at h
            simp only [] at h
            by_cases hfits : cApp.size ≤ cand.1 - address
            · rw [if_pos hfits] at h
              cases h
              rfl
            · rw [if_neg hfits] at h
              simp at h

lemma decideNext_fixed {cApps : List FlexibleApp} {rustApps : List FixedApp}
    {ordRem : List Nat} {rustIdx compatIdx address ci : Nat}
    (h : decideNext cApps rustApps ordRem rustIdx compatIdx address =
      .ok (some (.insertFixed ci))) :
    ∃ ra cand, rustApps.get? rustIdx = some ra ∧
      ra.compatible_addresses.get? ci = some (some cand) ∧ address ≤ cand.1 := by
  match hord : ordRem with
  | [] =>
    simp only [decideNext] at h
    match hr : rustApps.get? rustIdx with
    | none => rw [hr] at h; simp at h
    | some ra =>
      rw [hr] at h
      simp only [] at h
      match hs : scanCompat (ra.compatible_addresses.length + 1)
          ra.compatible_addresses compatIdx address with
      | .error e => rw [hs] at h; simp at h
      | .ok ci0 =>
        rw [hs] at h
        simp only [] at h
        cases h
        obtain ⟨cand, hcand, hle⟩ := scanCompat_ok _ _ _ _ _ hs
        exact ⟨ra, cand, rfl, hcand, hle⟩
  | c0 :: tail =>
    simp only [decideNext] at h
    match hr : rustApps.get? rustIdx with
    | none =>
      rw [hr] at h
      simp at h
    | some ra =>
      rw [hr] at h
      simp only [] at h
      match hs : scanCompat (ra.compatible_addresses.length + 1)
          ra.compatible_addresses compatIdx address with
      | .error e => rw [hs] at h; simp at h
      | .ok ci0 =>
        rw [hs] at h
        simp only [] at h
        match hcand : ra.compatible_addresses.get? ci0 with
        | none => rw [hcand] at h; simp at h
        | some none => rw [hcand] at h; simp at h
        | some (some cand) =>
          rw [hcand] at h
          simp only [] at h
          match hcapp : cApps.get? c0 with
          | none => rw [hcapp] at h; simp at h
          | some cApp =>
            rw [hcapp] at h
            simp only [] at h
            by_cases hfits : cApp.size ≤ cand.1 - address
            · rw [if_pos hfits] at h
              simp at h
            · rw [if_neg hfits] at h
              cases h
              obtain ⟨cand2, hcand2, hle2⟩ := scanCompat_ok _ _ _ _ _ hs
              rw [hcand] at hcand2
              cases hcand2
              exact ⟨ra, cand, rfl, hcand, hle2⟩

lemma decideNext_none {cApps : List FlexibleApp} {rustApps : List FixedApp}
    {ordRem : List Nat} {rustIdx compatIdx address : Nat}
    (h : decideNext cApps rustApps ordRem rustIdx compatIdx address = .ok none) :
    ordRem = [] ∧ rustApps.get? rustIdx = none := by
  match hord : ordRem with
  | [] =>
    simp only [decideNext] at h
    match hr : rustApps.get? rustIdx with
    | none => exact ⟨rfl, rfl⟩
    | some ra =>
      rw [hr] at h
      simp only [] at h
      match hs : scanCompat (ra.compatible_addresses.length + 1)
          ra.compatible_addresses compatIdx address with
      | .error e => rw [hs] at h; simp at h
      | .ok ci0 => rw [hs] at h; simp at h
  | c0 :: tail =>
    simp only [decideNext] at h
    match hr : rustApps.get? rustIdx with
    | none =>
      rw [hr] at h
      simp at h
    | some ra =>
      rw [hr] at h
      simp only [] at h
      match hs : scanCompat (ra.compatible_addresses.length + 1)
          ra.compatible_addresses compatIdx address with
      | .error e => rw [hs] at h; simp at h
      | .ok ci0 =>
        rw [hs] at h
        simp only [] at h
        match hcand : ra.compatible_addresses.get? ci0 with
        | none => rw [hcand] at h; simp at h
        | some none => rw [hcand] at h; simp at h
        | some (some cand) =>
          rw [hcand] at h
          simp only [] at h
          match hcapp : cApps.get? c0 with
          | none => rw [hcapp] at h; simp at h
          | some cApp =>
            rw [hcapp] at h
            simp only [] at h
            by_cases hfits : cApp.size ≤ cand.1 - address
            · rw [if_pos hfits] at h; simp at h
            · rw [if_neg hfits] at h; simp at h

/-- Entries the placement loop may emit: a padding entry of positive
size, a page-aligned Flexible app entry, or a Fixed app entry placed at
one of the candidate addresses of one of the Fixed apps. -/
def GoodEntry (S : BoardSettings) (rustApps : List FixedApp) (e : Index) : Prop :=
  (e.idx = none ∧ e.fixed = false ∧ 0 < e.size) ∨
  (e.fixed = false ∧ e.idx.isSome ∧ isMultipleOf e.address S.page_size = true) ∨
  (e.fixed = true ∧ ∃ ra ∈ rustApps, e.idx = ra.idx ∧ e.size = ra.size ∧
    ∃ ram, some (e.address, ram) ∈ ra.compatible_addresses)

lemma placeLoop_spec (S : BoardSettings) (cApps : List FlexibleApp)
    (rustApps : List FixedApp) :
    ∀ (fuel : Nat) (ordRem : List Nat) (rustIdx compatIdx : Nat)
      (acc : List Index) (pad : Nat) (cfg : List Index) (tp : Nat),
      placeLoop S cApps rustApps fuel ordRem rustIdx compatIdx acc pad =
        .ok (cfg, tp) →
      ∃ ext, cfg = acc ++ ext ∧
        ChainFrom (cursorOf S acc) ext ∧
        (∀ e ∈ ext, GoodEntry S rustApps e) ∧
        padSum ext + pad = tp ∧
        appSum ext = ordSizes cApps ordRem + rustSizes rustApps rustIdx ∧
        cursorOk S cfg = true := by
  intro fuel
  induction fuel with
  | zero =>
    intro ordRem rustIdx compatIdx acc pad cfg tp h
    simp [placeLoop] at h
  | succ fuel ih =>
    intro ordRem rustIdx compatIdx acc pad cfg tp h
    rw [placeLoop] at h
    by_cases hco : cursorOk S acc = true
    case neg => rw [if_neg hco] at h; simp at h
    rw [if_pos hco] at h
    simp only [] at h
    match hdec : decideNext cApps rustApps ordRem rustIdx compatIdx
        (cursorOf S acc) with
    | .error e => rw [hdec] at h; simp at h
    | .ok none =>
      rw [hdec] at h
      simp only [] at h
      have hcfg : acc = cfg ∧ pad = tp := by
        cases h
        exact ⟨rfl, rfl⟩
      obtain ⟨hcfg1, hcfg2⟩ := hcfg
      subst hcfg1
      subst hcfg2
      obtain ⟨hord0, hrust0⟩ := decideNext_none hdec
      subst hord0
      have hdrop : rustApps.drop rustIdx = [] := by
        apply List.drop_eq_nil_of_le
        exact List.get?_eq_none.mp hrust0
      exact ⟨[], by simp, trivial, by simp, by simp [padSum],
        by simp [appSum, ordSizes, rustSizes, hdrop], hco⟩
    | .ok (some act) =>
      rw [hdec] at h
      simp only [] at h
      match hpad : paddingFor S rustApps rustIdx act (cursorOf S acc) with
      | .error e => rw [hpad] at h; simp at h
      | .ok needed =>
        rw [hpad] at h
        simp only [] at h
        match hact : act with
        | .insertFlexible cIdx ci =>
          have main : ∀ (acc2 : List Index) (tp2 : Nat) (padL : List Index),
              acc2 = acc ++ padL → tp2 = pad + needed →
              (padL = [] ∧ needed = 0 ∨
                padL = [⟨false, none, false, none, cursorOf S acc, needed⟩] ∧
                  0 < needed) →
              ((match cApps.get? cIdx with
                | none => .error "index out of bounds"
                | some cApp =>
                  if cApp.idx.isNone then .error "C app has no index assigned!"
                  else
                    placeLoop S cApps rustApps fuel ordRem.tail rustIdx ci
                      (acc2 ++ [cApp.asIndex none (cursorOf S acc + needed)]) tp2 :
                Except String (List Index × Nat)) = .ok (cfg, tp)) →
              ∃ ext, cfg = acc ++ ext ∧
                ChainFrom (cursorOf S acc) ext ∧
                (∀ e ∈ ext, GoodEntry S rustApps e) ∧
                padSum ext + pad = tp ∧
                appSum ext = ordSizes cApps ordRem + rustSizes rustApps rustIdx ∧
                cursorOk S cfg = true := by
            intro acc2 tp2 padL ha2 ht2 hpadL hbody
            match hcapp : cApps.get? cIdx with
            | none => rw [hcapp] at hbody; simp at hbody
            | some cApp =>
              rw [hcapp] at hbody
              simp only [] at hbody
              by_cases hidx : cApp.idx.isNone
              case pos => rw [if_pos hidx] at hbody; simp at hbody
              rw [if_neg hidx] at hbody
              obtain ⟨vIdx, hvIdx⟩ : ∃ v, cApp.idx = some v := by
                cases hc : cApp.idx with
                | none => rw [hc] at hidx; simp at hidx
                | some v => exact ⟨v, rfl⟩
              obtain ⟨ext2, hcfg, hch2, hgood2, hpad2, happ2, hok2⟩ :=
                ih ordRem.tail rustIdx ci _ tp2 cfg tp hbody
              have hentry : (cApp.asIndex none (cursorOf S acc + needed)).address =
                  cursorOf S acc + needed := rfl
              have hcursor : cursorOf S (acc2 ++ [cApp.asIndex none
                  (cursorOf S acc + needed)]) =
                  cursorOf S acc + needed + cApp.size := by
                rw [cursorOf_eq_listEnd, listEnd_concat]
                rfl
              have halign : isMultipleOf (cursorOf S acc + needed)
                  S.page_size = true := by
                simp only [paddingFor] at hpad
                by_cases hmul : isMultipleOf (cursorOf S acc) S.page_size = true
                · rw [if_pos hmul] at hpad
                  injection hpad with hpe
                  rw [← hpe]
                  simpa using hmul
                · rw [if_neg hmul] at hpad
                  by_cases hz : S.page_size = 0
                  · rw [if_pos hz] at hpad; simp at hpad
                  · rw [if_neg hz] at hpad
                    injection hpad with hpe
                    rw [isMultipleOf, if_neg hz]
                    have hdm := Nat.div_add_mod (cursorOf S acc) S.page_size
                    have hmlt : cursorOf S acc % S.page_size < S.page_size :=
                      Nat.mod_lt _ (Nat.pos_of_ne_zero hz)
                    have hsum : cursorOf S acc + needed =
                        S.page_size * (cursorOf S acc / S.page_size) +
                          S.page_size := by
                      omega
                    rw [hsum]
                    have heq : S.page_size * (cursorOf S acc / S.page_size) +
                        S.page_size =
                        S.page_size * (cursorOf S acc / S.page_size + 1) := by
                      ring
                    rw [heq, Nat.mul_mod_right]
                    rfl
              have hord1 : ordRem = cIdx :: ordRem.tail := by
                have hhd := decideNext_flex hdec
                match hor : ordRem with
                | [] => simp at hhd
                | c0 :: t =>
                  simp at hhd
                  subst hhd
                  rfl
              refine ⟨padL ++ (cApp.asIndex none (cursorOf S acc + needed)) ::
                ext2, ?_, ?_, ?_, ?_, ?_, hok2⟩
              · rw [hcfg, ha2]
                simp
              · rcases hpadL with ⟨hL, hn0⟩ | ⟨hL, hn0⟩
                · rw [hL]
                  simp only [List.nil_append]
                  refine ⟨by omega, ?_⟩
                  rw [hcursor] at hch2
                  exact hch2
                · rw [hL]
                  simp only [List.cons_append, List.nil_append]
                  refine ⟨rfl, hentry, ?_⟩
                  rw [hcursor] at hch2
                  exact hch2
              · intro e he
                rcases List.mem_append.mp he with he | he
                · rcases hpadL with ⟨hL, _⟩ | ⟨hL, hn0⟩
                  · rw [hL] at he; cases he
                  · rw [hL] at he
                    rcases List.mem_cons.mp he with he | he
                    · subst he
                      exact Or.inl ⟨rfl, rfl, hn0⟩
                    · cases he
                · rcases List.mem_cons.mp he with he | he
                  · subst he
                    refine Or.inr (Or.inl ⟨rfl, ?_, halign⟩)
                    simp [FlexibleApp.asIndex, hvIdx]
                  · exact hgood2 e he
              · have hpl : padSum (padL ++ (cApp.asIndex none
                    (cursorOf S acc + needed)) :: ext2) =
                    needed + padSum ext2 := by
                  rcases hpadL with ⟨hL, hn0⟩ | ⟨hL, hn0⟩
                  · rw [hL, hn0]
                    simp [padSum, List.filter_append, FlexibleApp.asIndex,
                      hvIdx]
                  · rw [hL]
                    simp [padSum, List.filter_append, FlexibleApp.asIndex,
                      hvIdx]
                rw [hpl]
                rw [ht2] at hpad2
                omega
              · have hal : appSum (padL ++ (cApp.asIndex none
                    (cursorOf S acc + needed)) :: ext2) =
                    cApp.size + appSum ext2 := by
                  rcases hpadL with ⟨hL, hn0⟩ | ⟨hL, hn0⟩
                  · rw [hL]
                    simp [appSum, List.filter_append, FlexibleApp.asIndex,
                      hvIdx]
                  · rw [hL]
                    simp [appSum, List.filter_append, FlexibleApp.asIndex,
                      hvIdx]
                rw [hal, happ2]
                have hosz : ordSizes cApps ordRem =
                    cApp.size + ordSizes cApps ordRem.tail := by
                  conv_lhs => rw [hord1]
                  rw [ordSizes, List.filterMap_cons, hcapp]
                  simp [ordSizes]
                rw [hosz]
                omega
          by_cases hneed : 0 < needed
          · rw [if_pos hneed] at h
            by_cases ho1 : pad + needed < 2 ^ 64
            case neg => rw [if_neg ho1] at h; simp at h
            rw [if_pos ho1] at h
            by_cases ho2 : cursorOf S acc + needed < 2 ^ 64
            case neg => rw [if_neg ho2] at h; simp at h
            rw [if_pos ho2] at h
            simp only [] at h
            exact main _ _ [⟨false, none, false, none, cursorOf S acc, needed⟩]
              rfl rfl (Or.inr ⟨rfl, hneed⟩) h
          · rw [if_neg hneed] at h
            simp only [] at h
            exact main acc pad [] (by simp) (by omega) (Or.inl ⟨rfl, by omega⟩) h
        | .insertFixed ci =>
          have main : ∀ (acc2 : List Index) (tp2 : Nat) (padL : List Index),
              acc2 = acc ++ padL → tp2 = pad + needed →
              (padL = [] ∧ needed = 0 ∨
                padL = [⟨false, none, false, none, cursorOf S acc, needed⟩] ∧
                  0 < needed) →
              ((match rustApps.get? rustIdx with
                | some ra =>
                  match ra.compatible_addresses.get? ci with
                  | some (some cand) =>
                    if ra.idx.isNone then .error "Rust app has no index assigned!"
                    else
                      placeLoop S cApps rustApps fuel ordRem (rustIdx + 1) ci
                        (acc2 ++ [ra.asIndex (some cand.2) cand.1]) tp2
                  | _ => .error "No compatible address! (4)"
                | none => .error "index out of bounds" :
                Except String (List Index × Nat)) = .ok (cfg, tp)) →
              ∃ ext, cfg = acc ++ ext ∧
                ChainFrom (cursorOf S acc) ext ∧
                (∀ e ∈ ext, GoodEntry S rustApps e) ∧
                padSum ext + pad = tp ∧
                appSum ext = ordSizes cApps ordRem + rustSizes rustApps rustIdx ∧
                cursorOk S cfg = true := by
            intro acc2 tp2 padL ha2 ht2 hpadL hbody
            match hra : rustApps.get? rustIdx with
            | none => rw [hra] at hbody; simp at hbody
            | some ra =>
              rw [hra] at hbody
              simp only [] at hbody
              match hcand : ra.compatible_addresses.get? ci with
              | none => rw [hcand] at hbody; simp at hbody
              | some none => rw [hcand] at hbody; simp at hbody
              | some (some cand) =>
                rw [hcand] at hbody
                simp only [] at hbody
                by_cases hidx : ra.idx.isNone
                case pos => rw [if_pos hidx] at hbody; simp at hbody
                rw [if_neg hidx] at hbody
                obtain ⟨vIdx2, hvIdx2⟩ : ∃ v, ra.idx = some v := by
                  cases hc : ra.idx with
                  | none => rw [hc] at hidx; simp at hidx
                  | some v => exact ⟨v, rfl⟩
                obtain ⟨ext2, hcfg, hch2, hgood2, hpad2, happ2, hok2⟩ :=
                  ih ordRem (rustIdx + 1) ci _ tp2 cfg tp hbody
                have hfixcand : cand.1 = cursorOf S acc + needed := by
                  obtain ⟨ra2, cand2, hra2, hcand2, hle2⟩ := decideNext_fixed hdec
                  rw [hra] at hra2
                  injection hra2 with hra2
                  subst hra2
                  rw [hcand] at hcand2
                  injection hcand2 with hcand2
                  injection hcand2 with hcand2
                  subst hcand2
                  simp only [paddingFor] at hpad
                  rw [hra] at hpad
                  simp only [] at hpad
                  rw [hcand] at hpad
                  simp only [] at hpad
                  injection hpad with hpe
                  omega
                have hcursor : cursorOf S (acc2 ++ [ra.asIndex (some cand.2)
                    cand.1]) = cand.1 + ra.size := by
                  rw [cursorOf_eq_listEnd, listEnd_concat]
                  rfl
                refine ⟨padL ++ (ra.asIndex (some cand.2) cand.1) ::
                  ext2, ?_, ?_, ?_, ?_, ?_, hok2⟩
                · rw [hcfg, ha2]
                  simp
                · rcases hpadL with ⟨hL, hn0⟩ | ⟨hL, hn0⟩
                  · rw [hL]
                    simp only [List.nil_append]
                    refine ⟨?_, ?_⟩
                    · show cand.1 = cursorOf S acc
                      omega
                    · rw [hcursor] at hch2
                      exact hch2
                  · rw [hL]
                    simp only [List.cons_append, List.nil_append]
                    refine ⟨rfl, ?_, ?_⟩
                    · show cand.1 = cursorOf S acc + needed
                      omega
                    · rw [hcursor] at hch2
                      exact hch2
                · intro e he
                  rcases List.mem_append.mp he with he | he
                  · rcases hpadL with ⟨hL, _⟩ | ⟨hL, hn0⟩
                    · rw [hL] at he; cases he
                    · rw [hL] at he
                      rcases List.mem_cons.mp he with he | he
                      · subst he
                        exact Or.inl ⟨rfl, rfl, hn0⟩
                      · cases he
                  · rcases List.mem_cons.mp he with he | he
                    · subst he
                      refine Or.inr (Or.inr ⟨rfl, ra, List.get?_mem hra,
                        rfl, rfl, cand.2, ?_⟩)
                      exact List.get?_mem hcand
                    · exact hgood2 e he
                · have hpl : padSum (padL ++ (ra.asIndex (some cand.2)
                      cand.1) :: ext2) = needed + padSum ext2 := by
                    rcases hpadL with ⟨hL, hn0⟩ | ⟨hL, hn0⟩
                    · rw [hL, hn0]
                      simp [padSum, List.filter_append, FixedApp.asIndex,
                        hidx]
                    · rw [hL]
                      simp [padSum, List.filter_append, FixedApp.asIndex,
                        hidx]
                  rw [hpl]
                  rw [ht2] at hpad2
                  omega
                · have hal : appSum (padL ++ (ra.asIndex (some cand.2)
                      cand.1) :: ext2) = ra.size + appSum ext2 := by
                    rcases hpadL with ⟨hL, hn0⟩ | ⟨hL, hn0⟩
                    · rw [hL]
                      simp [appSum, List.filter_append, FixedApp.asIndex,
                        hvIdx2]
                    · rw [hL]
                      simp [appSum, List.filter_append, FixedApp.asIndex,
                        hvIdx2]
                  rw [hal, happ2]
                  have hrsz : rustSizes rustApps rustIdx =
                      ra.size + rustSizes rustApps (rustIdx + 1) := by
                    rw [rustSizes, rustSizes]
                    have hlt : rustIdx < rustApps.length := by
                      by_contra hcon
                      rw [List.get?_eq_none.mpr (by omega)] at hra
                      cases hra
                    rw [List.drop_eq_get_cons hlt]
                    have : rustApps.get ⟨rustIdx, hlt⟩ = ra := by
                      have := List.get?_eq_get hlt
                      rw [this] at hra
                      cases hra
                      rfl
                    rw [this]
                    simp
                  rw [hrsz]
                  omega
          by_cases hneed : 0 < needed
          · rw [if_pos hneed] at h
            by_cases ho1 : pad + needed < 2 ^ 64
            case neg => rw [if_neg ho1] at h; simp at h
            rw [if_pos ho1] at h
            by_cases ho2 : cursorOf S acc + needed < 2 ^ 64
            case neg => rw [if_neg ho2] at h; simp at h
            rw [if_pos ho2] at h
            simp only [] at h
            exact main _ _ [⟨false, none, false, none, cursorOf S acc, needed⟩]
              rfl rfl (Or.inr ⟨rfl, hneed⟩) h
          · rw [if_neg hneed] at h
            simp only [] at h
            exact main acc pad [] (by simp) (by omega) (Or.inl ⟨rfl, by omega⟩) h

lemma chainFrom_pairwise_le : ∀ (l : List Index) (c : Nat), ChainFrom c l →
    l.Pairwise (fun a b => a.address ≤ b.address) := by
  intro l
  induction l with
  | nil => intro c _; exact List.Pairwise.nil
  | cons f rest ih =>
    intro c hch
    obtain ⟨hf, hrest⟩ := hch
    refine List.Pairwise.cons ?_ (ih (f.address + f.size) hrest)
    intro e he
    have h1 := chainFrom_le rest (f.address + f.size) hrest e he
    omega

lemma searchLoop_spec (S : BoardSettings) (cApps : List FlexibleApp)
    (rustApps : List FixedApp) :
    ∀ (perms : List (List Nat)) (minPad : Nat) (saved out : List Index),
      searchLoop S cApps rustApps perms minPad saved = .ok out →
      out = saved ∨ ∃ ord pad, ord ∈ perms ∧
        placeLoop S cApps rustApps (ord.length + rustApps.length + 1)
          ord 0 0 [] 0 = .ok (out, pad) := by
  intro perms
  induction perms with
  | nil =>
    intro minPad saved out h
    simp only [searchLoop] at h
    injection h with h
    exact Or.inl h.symm
  | cons order rest ih =>
    intro minPad saved out h
    simp only [searchLoop] at h
    match hpl : placeLoop S cApps rustApps (order.length + rustApps.length + 1)
        order 0 0 [] 0 with
    | .error e => rw [hpl] at h; cases h
    | .ok (cfg, pad) =>
      rw [hpl] at h
      simp only [] at h
      by_cases h1 : pad < minPad
      · rw [if_pos h1] at h
        by_cases h2 : pad = 0
        · rw [if_pos h2] at h
          injection h with h
          exact Or.inr ⟨order, pad, List.mem_cons_self _ _, by rw [hpl, h]⟩
        · rw [if_neg h2] at h
          rcases ih pad cfg out h with hout | ⟨ord, pad2, hmem, hpl2⟩
          · subst hout
            exact Or.inr ⟨order, pad, List.mem_cons_self _ _, hpl⟩
          · exact Or.inr ⟨ord, pad2, List.mem_cons_of_mem _ hmem, hpl2⟩
      · rw [if_neg h1] at h
        rcases ih minPad saved out h with hout | ⟨ord, pad2, hmem, hpl2⟩
        · exact Or.inl hout
        · exact Or.inr ⟨ord, pad2, List.mem_cons_of_mem _ hmem, hpl2⟩

lemma pickEach_mem : ∀ (l : List Nat) (y : Nat) (r : List Nat),
    (y, r) ∈ pickEach l → (y :: r).Perm l := by
  intro l
  induction l with
  | nil => intro y r h; cases h
  | cons x xs ih =>
    intro y r h
    rw [pickEach] at h
    rcases List.mem_cons.mp h with h | h
    · injection h with h1 h2
      subst h1
      subst h2
      exact List.Perm.refl _
    · rw [List.mem_map] at h
      obtain ⟨p, hp, hpe⟩ := h
      have h1 := ih p.1 p.2 hp
      have h2 : y = p.1 ∧ r = x :: p.2 := by
        rw [Prod.ext_iff] at hpe
        exact ⟨hpe.1.symm, hpe.2.symm⟩
      obtain ⟨hy, hr⟩ := h2
      subst hy
      subst hr
      exact (List.Perm.swap x p.1 p.2).trans (List.Perm.cons x h1)

lemma lexPermsF_mem : ∀ (fuel : Nat) (l p : List Nat),
    p ∈ lexPermsF fuel l → p.Perm l := by
  intro fuel
  induction fuel with
  | zero =>
    intro l p h
    match l with
    | [] =>
      simp only [lexPermsF, List.mem_singleton] at h
      subst h
      exact List.Perm.refl _
    | x :: xs => simp only [lexPermsF] at h; cases h
  | succ fuel ih =>
    intro l p h
    match l with
    | [] =>
      simp only [lexPermsF, List.mem_singleton] at h
      subst h
      exact List.Perm.refl _
    | x :: xs =>
      simp only [lexPermsF, List.mem_flatMap] at h
      obtain ⟨pr, hpr, hp⟩ := h
      rw [List.mem_map] at hp
      obtain ⟨q, hq, hpq⟩ := hp
      subst hpq
      have h1 := pickEach_mem (x :: xs) pr.1 pr.2 hpr
      have h2 := ih pr.2 q hq
      exact (List.Perm.cons pr.1 h2).trans h1

lemma lexPerms_mem (l p : List Nat) (h : p ∈ lexPerms l) : p.Perm l :=
  lexPermsF_mem l.length l p h

lemma ordSizes_perm (cApps : List FlexibleApp) (o1 o2 : List Nat)
    (h : o1.Perm o2) : ordSizes cApps o1 = ordSizes cApps o2 := by
  rw [ordSizes, ordSizes]
  exact (h.filterMap _).sum_eq

lemma ordSizes_range : ∀ (cApps : List FlexibleApp),
    ordSizes cApps (List.range cApps.length) =
      (cApps.map (fun f => f.size)).sum := by
  intro cApps
  induction cApps with
  | nil => rfl
  | cons f rest ih =>
    rw [ordSizes, List.length_cons, List.range_succ_eq_map,
      List.filterMap_cons, List.filterMap_map]
    rw [ordSizes] at ih
    show f.size + (List.filterMap (fun j =>
        Option.map (fun f => f.size) (rest.get? j))
        (List.range rest.length)).sum =
      (List.map (fun f => f.size) (f :: rest)).sum
    rw [ih]
    rfl

lemma rustSizes_zero (rustApps : List FixedApp) :
    rustSizes rustApps 0 = (rustApps.map (fun f => f.size)).sum := rfl

lemma mapExcept_map_back {β : Type} (f : α → Except String β) (g : β → α)
    (hg : ∀ x y, f x = .ok y → g y = x) :
    ∀ (l : List α) (r : List β), mapExcept f l = .ok r → r.map g = l := by
  intro l
  induction l with
  | nil =>
    intro r h
    simp only [mapExcept] at h
    injection h with h
    subst h
    rfl
  | cons a rest ih =>
    intro r h
    simp only [mapExcept] at h
    match hfa : f a with
    | .error e => rw [hfa] at h; cases h
    | .ok y =>
      rw [hfa] at h
      simp only [] at h
      match hrest : mapExcept f rest with
      | .error e => rw [hrest] at h; cases h
      | .ok ys =>
        rw [hrest] at h
        simp only [] at h
        injection h with h
        subst h
        rw [List.map_cons, ih ys hrest, hg a y hfa]

lemma sortFixed_perm (apps out : List FixedApp)
    (h : sortFixed apps = .ok out) : out.Perm apps := by
  rw [sortFixed] at h
  by_cases hlen : apps.length < 2
  · rw [if_pos hlen] at h
    injection h with h
    subst h
    exact List.Perm.refl _
  · rw [if_neg hlen] at h
    match hm : mapExcept (fun a => (fixedSortKey a).map (fun k => (k, a)))
        apps with
    | .error e => rw [hm] at h; cases h
    | .ok keyed =>
      rw [hm] at h
      simp only [] at h
      injection h with h
      subst h
      have hback : keyed.map (fun p => p.2) = apps := by
        refine mapExcept_map_back _ _ ?_ apps keyed hm
        intro x y hxy
        match hk : fixedSortKey x with
        | .error e => rw [hk] at hxy; cases hxy
        | .ok k =>
          rw [hk] at hxy
          injection hxy with hxy
          rw [← hxy]
      have hperm := (List.perm_insertionSort
        (fun x y : Nat × FixedApp => x.1 ≤ y.1) keyed).map (fun p => p.2)
      rw [hback] at hperm
      exact hperm

lemma assignIndices_flex_sizes : ∀ (i : Nat) (l : List TockApp),
    ((assignIndices i l).filterMap (fun a => match a with
      | .Flexible f => some f
      | .Fixed _ => none)).map (fun f => f.size) =
    (l.filterMap (fun a => match a with
      | .Flexible f => some f
      | .Fixed _ => none)).map (fun f => f.size) := by
  intro i l
  induction l generalizing i with
  | nil => rfl
  | cons a rest ih =>
    match a with
    | .Flexible f =>
      simp only [assignIndices, TockApp.replaceIdx, List.filterMap_cons,
        List.map_cons]
      rw [ih (i + 1)]
    | .Fixed f =>
      simp only [assignIndices, TockApp.replaceIdx, List.filterMap_cons]
      exact ih (i + 1)

lemma assignIndices_fixed_sizes : ∀ (i : Nat) (l : List TockApp),
    ((assignIndices i l).filterMap (fun a => match a with
      | .Fixed f => some f
      | .Flexible _ => none)).map (fun f => f.size) =
    (l.filterMap (fun a => match a with
      | .Fixed f => some f
      | .Flexible _ => none)).map (fun f => f.size) := by
  intro i l
  induction l generalizing i with
  | nil => rfl
  | cons a rest ih =>
    match a with
    | .Flexible f =>
      simp only [assignIndices, TockApp.replaceIdx, List.filterMap_cons]
      exact ih (i + 1)
    | .Fixed f =>
      simp only [assignIndices, TockApp.replaceIdx, List.filterMap_cons,
        List.map_cons]
      rw [ih (i + 1)]

lemma assignIndices_fixed_mem : ∀ (i : Nat) (l : List TockApp)
    (fa : FixedApp), TockApp.Fixed fa ∈ assignIndices i l →
    ∃ j fb, l.get? j = some (TockApp.Fixed fb) ∧ fa.idx = some (i + j) ∧
      fa.size = fb.size ∧
      fa.compatible_addresses = fb.compatible_addresses := by
  intro i l
  induction l generalizing i with
  | nil => intro fa h; cases h
  | cons a rest ih =>
    intro fa h
    rcases List.mem_cons.mp h with h | h
    · match a with
      | .Flexible f => simp [TockApp.replaceIdx] at h
      | .Fixed f =>
        simp only [TockApp.replaceIdx, TockApp.Fixed.injEq] at h
        subst h
        exact ⟨0, f, rfl, rfl, rfl, rfl⟩
    · obtain ⟨j, fb, hget, hidx, h1, h2⟩ := ih (i + 1) fa h
      refine ⟨j + 1, fb, hget, ?_, h1, h2⟩
      rw [hidx]
      have harith : i + 1 + j = i + (j + 1) := by omega
      rw [harith]

lemma tockApp_size_split : ∀ (l : List TockApp),
    (l.map appSize).sum =
    ((l.filterMap (fun a => match a with
      | .Flexible f => some f
      | .Fixed _ => none)).map (fun f => f.size)).sum +
    ((l.filterMap (fun a => match a with
      | .Fixed f => some f
      | .Flexible _ => none)).map (fun f => f.size)).sum := by
  intro l
  induction l with
  | nil => rfl
  | cons a rest ih =>
    match a with
    | .Flexible f =>
      simp only [List.map_cons, List.sum_cons, List.filterMap_cons, appSize]
      omega
    | .Fixed f =>
      simp only [List.map_cons, List.sum_cons, List.filterMap_cons, appSize]
      omega

lemma sumSizes_split : ∀ (l : List Index),
    sumSizes l = padSum l + appSum l := by
  intro l
  induction l with
  | nil => rfl
  | cons e rest ih =>
    rw [sumSizes, padSum, appSum] at ih ⊢
    rw [List.map_cons, List.sum_cons, List.filter_cons, List.filter_cons]
    by_cases he : e.idx.isNone
    · rw [if_pos he, if_neg (by simpa using he)]
      rw [List.map_cons, List.sum_cons]
      omega
    · rw [if_neg he, if_pos (by simpa [Option.isSome_iff_ne_none] using he)]
      rw [List.map_cons, List.sum_cons]
      omega

/-- C2 (corrected). When reshuffle_apps returns a configuration it is
either the untouched initial empty candidate (kept when no permutation
achieves a total padding below usize::MAX) or a contiguous chain from
the start address whose addresses are non-decreasing — and strictly
increasing whenever every entry size is positive, the strict form of the
claim failing for zero-sized apps — in which every Flexible app entry
sits on a page boundary, every Fixed app entry sits at a candidate
address of the very Fixed input app it represents (the input app at the
entry's index), and the bytes covered equal the input app sizes plus
the inserted padding. -/
theorem c2_reshuffle_invariants (settings : BoardSettings)
    (installed_apps : List TockApp) (cfg : List Index)
    (h : reshuffle_apps settings installed_apps = .ok (some cfg)) :
    cfg = [] ∨
    (ChainFrom settings.start_address cfg ∧
      cfg.Pairwise (fun a b => a.address ≤ b.address) ∧
      ((∀ e ∈ cfg, 0 < e.size) →
        cfg.Pairwise (fun a b => a.address < b.address)) ∧
      (∀ e ∈ cfg, e.fixed = false → e.idx.isSome →
        isMultipleOf e.address settings.page_size = true) ∧
      (∀ e ∈ cfg, e.fixed = true → ∃ j fa, e.idx = some j ∧
        installed_apps.get? j = some (TockApp.Fixed fa) ∧
        e.size = fa.size ∧
        ∃ ram, some (e.address, ram) ∈ fa.compatible_addresses) ∧
      sumSizes cfg = (installed_apps.map appSize).sum + padSum cfg) := by
  rw [reshuffle_apps] at h
  match hsort : sortFixed ((assignIndices 0 installed_apps).filterMap
      (fun a => match a with
        | .Fixed f => some f
        | .Flexible _ => none)) with
  | .error e => rw [hsort] at h; simp at h
  | .ok rustApps =>
    rw [hsort] at h
    simp only [] at h
    by_cases hemp : rustApps.any (fun a => a.compatible_addresses.isEmpty)
    · rw [if_pos hemp] at h
      simp at h
    · rw [if_neg hemp] at h
      match hsearch : searchLoop settings
          ((assignIndices 0 installed_apps).filterMap (fun a => match a with
            | .Flexible f => some f
            | .Fixed _ => none)) rustApps
          ((lexPerms (List.range ((assignIndices 0 installed_apps).filterMap
            (fun a => match a with
              | .Flexible f => some f
              | .Fixed _ => none)).length)).take 100000) USIZE_MAX [] with
      | .error e => rw [hsearch] at h; simp at h
      | .ok out =>
        rw [hsearch] at h
        simp only [] at h
        injection h with h
        injection h with h
        subst h
        rcases searchLoop_spec settings _ rustApps _ _ _ _ hsearch with
          hout | ⟨ord, pad, hmem, hpl⟩
        · exact Or.inl hout
        · right
          obtain ⟨ext, hcfg, hch, hgood, hpads, happ, hok2⟩ :=
            placeLoop_spec settings _ rustApps _ ord 0 0 [] 0 out pad hpl
          rw [List.nil_append] at hcfg
          subst hcfg
          have hch0 : ChainFrom settings.start_address out := hch
          refine ⟨hch0, chainFrom_pairwise_le out _ hch0,
            fun hpos => chainFrom_pairwise out _ hch0 hpos, ?_, ?_, ?_⟩
          · intro e he hfix hsome
            rcases hgood e he with ⟨h1, _, _⟩ | ⟨_, _, h3⟩ | ⟨h1, _⟩
            · rw [h1] at hsome; simp at hsome
            · exact h3
            · rw [hfix] at h1; cases h1
          · intro e he hfix
            rcases hgood e he with ⟨_, h2, _⟩ | ⟨h2, _, _⟩ |
              ⟨_, ra, hra, hidxe, hsz, ram, hcand⟩
            · rw [hfix] at h2; cases h2
            · rw [hfix] at h2; cases h2
            · have hra0 := (sortFixed_perm _ rustApps hsort).mem_iff.mp hra
              obtain ⟨a, ha, hsel⟩ := List.mem_filterMap.mp hra0
              match a, hsel with
              | .Flexible f0, hsel => cases hsel
              | .Fixed fb0, hsel =>
                injection hsel with hsel
                subst hsel
                obtain ⟨j, fb, hget, hidxb, hszb, hcb⟩ :=
                  assignIndices_fixed_mem 0 installed_apps fb0 ha
                refine ⟨j, fb, ?_, hget, ?_, ram, ?_⟩
                · rw [hidxe, hidxb, Nat.zero_add]
                · rw [hsz, hszb]
                · rw [← hcb]; exact hcand
          · have hperm : ord.Perm (List.range
                (((assignIndices 0 installed_apps).filterMap
                  (fun a => match a with
                    | .Flexible f => some f
                    | .Fixed _ => none)).length)) :=
              lexPerms_mem _ ord (List.take_subset _ _ hmem)
            have hflex : ordSizes ((assignIndices 0 installed_apps).filterMap
                (fun a => match a with
                  | .Flexible f => some f
                  | .Fixed _ => none)) ord =
                ((installed_apps.filterMap (fun a => match a with
                  | .Flexible f => some f
                  | .Fixed _ => none)).map (fun f => f.size)).sum := by
              rw [ordSizes_perm _ ord _ hperm, ordSizes_range,
                assignIndices_flex_sizes]
            have hfixs : rustSizes rustApps 0 =
                ((installed_apps.filterMap (fun a => match a with
                  | .Fixed f => some f
                  | .Flexible _ => none)).map (fun f => f.size)).sum := by
              rw [rustSizes_zero,
                ((sortFixed_perm _ rustApps hsort).map (fun f => f.size)).sum_eq,
                assignIndices_fixed_sizes]
            rw [sumSizes_split out, happ, hflex, hfixs,
              tockApp_size_split installed_apps]
            omega

/-- C2-counterexample: two zero-size Flexible apps are both placed at
the start address, so the returned configuration's addresses are not
strictly increasing — the strict monotonicity conjunct of the claim
fails (the addresses are merely non-decreasing). -/
theorem c2_reshuffle_counterexample :
    reshuffle_apps ⟨none, 0, 512⟩
        [.Flexible ⟨false, none, 0⟩, .Flexible ⟨false, none, 0⟩] =
      .ok (some [⟨false, some 0, false, none, 0, 0⟩,
        ⟨false, some 1, false, none, 0, 0⟩]) ∧
    ¬ (([⟨false, some 0, false, none, 0, 0⟩,
        ⟨false, some 1, false, none, 0, 0⟩] : List Index).Pairwise
        (fun a b => a.address < b.address)) := by
  refine ⟨rfl, ?_⟩
  decide

/-- Witness for C2: the corrected theorem applied to two Flexible apps
of sizes 1024 and 2048 on a 512-byte-page board starting at 0x40000. -/
theorem c2_reshuffle_invariants_witness :
    ([⟨false, some 0, false, none, 262144, 1024⟩,
      ⟨false, some 1, false, none, 263168, 2048⟩] : List Index) = [] ∨
    (ChainFrom 262144
        [⟨false, some 0, false, none, 262144, 1024⟩,
          ⟨false, some 1, false, none, 263168, 2048⟩] ∧
      ([⟨false, some 0, false, none, 262144, 1024⟩,
        ⟨false, some 1, false, none, 263168, 2048⟩] : List Index).Pairwise
        (fun a b => a.address ≤ b.address) ∧
      ((∀ e ∈ ([⟨false, some 0, false, none, 262144, 1024⟩,
          ⟨false, some 1, false, none, 263168, 2048⟩] : List Index),
          0 < e.size) →
        ([⟨false, some 0, false, none, 262144, 1024⟩,
          ⟨false, some 1, false, none, 263168, 2048⟩] : List Index).Pairwise
          (fun a b => a.address < b.address)) ∧
      (∀ e ∈ ([⟨false, some 0, false, none, 262144, 1024⟩,
          ⟨false, some 1, false, none, 263168, 2048⟩] : List Index),
        e.fixed = false → e.idx.isSome →
        isMultipleOf e.address 512 = true) ∧
      (∀ e ∈ ([⟨false, some 0, false, none, 262144, 1024⟩,
          ⟨false, some 1, false, none, 263168, 2048⟩] : List Index),
        e.fixed = true → ∃ j fa, e.idx = some j ∧
        ([TockApp.Flexible ⟨false, none, 1024⟩,
          TockApp.Flexible ⟨false, none, 2048⟩] : List TockApp).get? j =
          some (TockApp.Fixed fa) ∧
        e.size = fa.size ∧
        ∃ ram, some (e.address, ram) ∈ fa.compatible_addresses) ∧
      sumSizes [⟨false, some 0, false, none, 262144, 1024⟩,
          ⟨false, some 1, false, none, 263168, 2048⟩] =
        (([TockApp.Flexible ⟨false, none, 1024⟩,
          TockApp.Flexible ⟨false, none, 2048⟩]).map appSize).sum +
        padSum [⟨false, some 0, false, none, 262144, 1024⟩,
          ⟨false, some 1, false, none, 263168, 2048⟩]) :=
  c2_reshuffle_invariants ⟨none, 262144, 512⟩
    [.Flexible ⟨false, none, 1024⟩, .Flexible ⟨false, none, 2048⟩]
    [⟨false, some 0, false, none, 262144, 1024⟩,
      ⟨false, some 1, false, none, 263168, 2048⟩] (by rfl)

end Tockloader
